import Mathlib

/-! MarkdownFileInventory: tag extraction, tag matching and the task runner.

A shallow embedding of `main.go`.

* A Go `string` is a sequence of bytes; it is embedded as `Str = List Char`, each element
  standing for one byte. Slicing, prefix, suffix and substring tests then act on list
  positions exactly as Go's act on byte positions.
* The functions of the Go standard library that `main.go` calls on strings (`strings.HasPrefix`,
  `strings.Index`, ...) are embedded by their documented behaviour, and `sort.Slice` as an
  insertion sort.
* The two decoders (`yaml.Unmarshal`, `toml.Unmarshal`) are third-party libraries; the embedding
  takes them as parameters, returning the decoded `tags` field or `none` on a decoding error.
  The functions of `path/filepath`, `Time.Format` and the verbs of `fmt.Sprintf` other than
  `%s` and `%%` are parameters as well (`Lib`).
* The file system is a list of entries (`Tree`); `processTask` is a function from the tree
  before the run to the tree after it and the error returned. Failures of `os.Create` and of
  writes are decided by an oracle (`Faults`).
-/

namespace MarkdownFileInventory

/-- Go `string`: a sequence of bytes. -/
abbrev Str := List Char

/-! ## The `strings` package -/

/-- `strings.HasPrefix(s, p)`. -/
def HasPrefix : Str → Str → Bool
  | _, [] => true
  | [], _ :: _ => false
  | c :: s, d :: p => c == d && HasPrefix s p

/-- `strings.HasSuffix(s, p)`. -/
def HasSuffix (s p : Str) : Bool :=
  HasPrefix s.reverse p.reverse

/-- `strings.TrimPrefix(s, p)`: `s` without the leading `p`, or `s` itself. -/
def TrimPrefix (s p : Str) : Str :=
  if HasPrefix s p then s.drop p.length else s

/-- `strings.TrimSuffix(s, p)`: `s` without the trailing `p`, or `s` itself. -/
def TrimSuffix (s p : Str) : Str :=
  if HasSuffix s p then s.take (s.length - p.length) else s

/-- `strings.Index(s, sub)`: the position of the first occurrence of `sub` in `s`;
Go's `-1` is `none`. -/
def Index : Str → Str → Option Nat
  | [], sub => if HasPrefix [] sub then some 0 else none
  | c :: s, sub =>
    if HasPrefix (c :: s) sub then some 0
    else match Index s sub with
      | some i => some (i + 1)
      | none => none

/-- `strings.Contains(s, sub)`, which is `Index(s, sub) >= 0`. -/
def Contains (s sub : Str) : Bool :=
  (Index s sub).isSome

/-- `strings.ReplaceAll(s, old, new)` for a one-byte `old`, which is the case at both call
sites in `processTask`. -/
def ReplaceAll : Str → Char → Str → Str
  | [], _, _ => []
  | c :: s, old, new => (if c == old then new else [c]) ++ ReplaceAll s old new

/-! ## Decoded front matter -/

/-- The dynamic value a decoder stores in the `Tags interface{}` field of `FrontMatterYAML`
and `FrontMatterTOML`. `null` is the zero value left when the key is absent; `other` is any
value that is neither a string nor a `[]interface{}`. -/
inductive Iface where
  | null : Iface
  | str : Str → Iface
  | seq : List Iface → Iface
  | other : Iface

/-- The type assertion `tag.(string)`. -/
def Iface.asString : Iface → Option Str
  | .str s => some s
  | _ => none

/-- A decoder applied to a block and a fresh front-matter struct: the value of the `Tags`
field afterwards, or `none` when the decoder returns an error. -/
abbrev Decoder := Str → Option Iface

/-- The delimiter `---`. -/
def yamlDelim : Str := ['-', '-', '-']

/-- The delimiter `+++`. -/
def tomlDelim : Str := ['+', '+', '+']

/-- `extractTagsFromYAMLFrontmatter` (main.go 45-73). -/
def extractTagsFromYAMLFrontmatter (yamlUnmarshal : Decoder) (content : Str) : List Str :=
  if HasPrefix content yamlDelim then
    match Index (content.drop 3) yamlDelim with
    | some endIndex =>
      let frontmatterContent := (content.take (endIndex + 3)).drop 3
      match yamlUnmarshal frontmatterContent with
      | some (.str v) => [v]
      | some (.seq v) => v.filterMap Iface.asString
      | _ => []
    | none => []
  else []

/-- `extractTagsFromTOMLFrontmatter` (main.go 76-104). -/
def extractTagsFromTOMLFrontmatter (tomlUnmarshal : Decoder) (content : Str) : List Str :=
  if HasPrefix content tomlDelim then
    match Index (content.drop 3) tomlDelim with
    | some endIndex =>
      let frontmatterContent := (content.take (endIndex + 3)).drop 3
      match tomlUnmarshal frontmatterContent with
      | some (.str v) => [v]
      | some (.seq v) => v.filterMap Iface.asString
      | _ => []
    | none => []
  else []

/-! ## Tag matcher -/

/-- The two nested loops of `fileContainsTags` over front-matter tags and required tags
(main.go 124-132 and 136-144): some front-matter tag equals some required tag with its
leading `#` trimmed. -/
def frontTagsMatch (frontTags requiredTags : List Str) : Bool :=
  frontTags.any fun frontTag =>
    requiredTags.any fun reqTag =>
      let cleanReqTag := TrimPrefix reqTag ['#']
      frontTag == cleanReqTag

/-- The search string of the inline pass (main.go 149-152). -/
def searchTag (tag : Str) : Str :=
  if !HasPrefix tag ['#'] then '#' :: tag else tag

/-- The loop of `fileContainsTags` over required tags (main.go 147-156). -/
def inlineMatch (contentStr : Str) (requiredTags : List Str) : Bool :=
  requiredTags.any fun tag => Contains contentStr (searchTag tag)

/-- `fileContainsTags` (main.go 107-159) together with the list of paths it passed to
`os.ReadFile`. `readFile` is the file system's answer to `os.ReadFile`: the content, or
`none` on an error. -/
def fileContainsTagsRun (yamlUnmarshal tomlUnmarshal : Decoder) (readFile : Str → Option Str)
    (filePath : Str) (requiredTags : List Str) : Bool × List Str :=
  if requiredTags.length = 0 then (true, [])
  else
    match readFile filePath with
    | none => (false, [filePath])
    | some contentStr =>
      let yamlTags := extractTagsFromYAMLFrontmatter yamlUnmarshal contentStr
      if frontTagsMatch yamlTags requiredTags then (true, [filePath])
      else
        let tomlTags := extractTagsFromTOMLFrontmatter tomlUnmarshal contentStr
        if frontTagsMatch tomlTags requiredTags then (true, [filePath])
        else if inlineMatch contentStr requiredTags then (true, [filePath])
        else (false, [filePath])

/-- `fileContainsTags`: the boolean it returns. -/
def fileContainsTags (yamlUnmarshal tomlUnmarshal : Decoder) (readFile : Str → Option Str)
    (filePath : Str) (requiredTags : List Str) : Bool :=
  (fileContainsTagsRun yamlUnmarshal tomlUnmarshal readFile filePath requiredTags).1

/-! ## Task runner -/

/-- `FileInfo` (main.go 18-21); the modification time is an abstract instant. -/
structure FileInfo where
  Path : Str
  ModTime : Nat
deriving DecidableEq

/-- `Task` (main.go 23-30). -/
structure Task where
  OutputFile : Str
  Template : Str
  Folders : List Str
  Extensions : List Str
  Tags : List Str
  Format : Str

/-- One entry of the file tree, under the path by which `filepath.Walk` reports it and
`os.ReadFile` and `os.Create` open it. `err` says that `Walk` hands the entry to its callback
with a non-nil error, `unreadable` that the file cannot be opened for reading. -/
structure Node where
  path : Str
  isDir : Bool
  content : Str
  modTime : Nat
  err : Bool
  unreadable : Bool
deriving DecidableEq

/-- The file tree: its entries in the order in which `filepath.Walk` visits them. -/
abbrev Tree := List Node

/-- Library functions `processTask` calls, taken as parameters: the two decoders,
`filepath.Join`, `filepath.Rel` (`none` on an error), `filepath.Base`, the relation
"`filepath.Walk` started at the first path reaches the second", `Time.Format("2006-01-02")`,
and `fmt.Sprintf` on the formats that `Sprintf` below does not cover. -/
structure Lib where
  yamlUnmarshal : Decoder
  tomlUnmarshal : Decoder
  join : Str → Str → Str
  rel : Str → Str → Option Str
  base : Str → Str
  inTree : Str → Str → Bool
  formatDate : Nat → Str
  sprintfOther : Str → List Str → Str

/-- Failures of the operating system during one run: `os.Create` on a path, and a write of
some data to the output file holding some content. -/
structure Faults where
  createFails : Str → Bool
  writeFails : Str → Str → Bool

/-- The errors `processTask` returns. -/
inductive TaskError where
  | creating : Str → TaskError
  | writingTemplate : Str → TaskError
  | writingOutput : Str → TaskError
deriving DecidableEq

/-- `os.ReadFile`: the content of the first entry under the path, unless there is none, it is
a directory or it is unreadable. -/
def readFile : Tree → Str → Option Str
  | [], _ => none
  | n :: t, p =>
    if n.path = p then (if n.isDir || n.unreadable then none else some n.content)
    else readFile t p

/-- `filepath.Walk` from a folder: the entries it hands to the callback. -/
def walk (lib : Lib) (t : Tree) (folderPath : Str) : List Node :=
  t.filter fun n => lib.inTree folderPath n.path

/-- The entry under the path cannot be opened for reading and writing. -/
def createBlocked : Tree → Str → Bool
  | [], _ => false
  | n :: t, p => if n.path = p then n.isDir || n.unreadable else createBlocked t p

/-- The tree after a successful `os.Create` at an instant: the file is created empty, or
truncated. -/
def createFile : Tree → Str → Nat → Tree
  | [], p, now =>
    [{ path := p, isDir := false, content := [], modTime := now, err := false,
       unreadable := false }]
  | n :: t, p, now =>
    if n.path = p then { n with content := [], modTime := now } :: t
    else n :: createFile t p now

/-- The tree after data is written at the end of a file. -/
def appendFile : Tree → Str → Str → Nat → Tree
  | [], _, _, _ => []
  | n :: t, p, data, now =>
    if n.path = p then { n with content := n.content ++ data, modTime := now } :: t
    else n :: appendFile t p data now

/-- A write to the open output file: the new tree, or `none` when the write fails. -/
def fileWrite (flt : Faults) (now : Nat) (outputPath data : Str) (t : Tree) : Option Tree :=
  if flt.writeFails ((readFile t outputPath).getD []) data then none
  else some (appendFile t outputPath data now)

/-- Go's `<` on strings: byte-wise lexicographic order. -/
def strLess : Str → Str → Bool
  | [], [] => false
  | [], _ :: _ => true
  | _ :: _, [] => false
  | a :: s, b :: t => if a < b then true else if b < a then false else strLess s t

/-- The comparison handed to `sort.Slice` (main.go 214-216). -/
def lessByPath (a b : FileInfo) : Bool :=
  strLess a.Path b.Path

/-- `sort.Slice`, embedded as insertion sort: an element is placed before the first element
of the already ordered rest that is not less than it. -/
def sortSlice (less : FileInfo → FileInfo → Bool) (l : List FileInfo) : List FileInfo :=
  l.insertionSort fun a b => less b a = false

/-- An extension with its leading dot (main.go 181-183 and 246-248). -/
def dotted (extension : Str) : Str :=
  if !HasPrefix extension ['.'] then '.' :: extension else extension

/-- The callback handed to `filepath.Walk` (main.go 185-206), applied to `allFiles` and one
entry: the value of `allFiles` afterwards. -/
def walkFn (lib : Lib) (t : Tree) (task : Task) (rootFolder extension : Str)
    (allFiles : List FileInfo) (n : Node) : List FileInfo :=
  if n.err then allFiles
  else if n.isDir then allFiles
  else if HasSuffix n.path extension then
    if fileContainsTags lib.yamlUnmarshal lib.tomlUnmarshal (readFile t) n.path task.Tags then
      let relPath := match lib.rel rootFolder n.path with
        | some r => r
        | none => n.path
      allFiles ++ [{ Path := relPath, ModTime := n.modTime }]
    else allFiles
  else allFiles

/-- The two nested loops over folders and extensions (main.go 177-212): the value of
`allFiles` afterwards. -/
def collectFiles (lib : Lib) (t : Tree) (task : Task) (rootFolder : Str) : List FileInfo :=
  task.Folders.foldl (fun allFiles folder =>
    let folderPath := lib.join rootFolder folder
    task.Extensions.foldl (fun allFiles extension =>
      (walk lib t folderPath).foldl (walkFn lib t task rootFolder (dotted extension)) allFiles)
      allFiles) []

/-- `fmt.Sprintf` with string operands, for a format whose verbs are `%s` and `%%`: the
operands replace the `%s` in order. Another verb, a missing or a surplus operand is left to
the library. -/
def Sprintf (other : Str → List Str → Str) : Str → List Str → Str
  | [], [] => []
  | [], a :: args => other [] (a :: args)
  | '%' :: 's' :: f, a :: args => a ++ Sprintf other f args
  | '%' :: '%' :: f, args => '%' :: Sprintf other f args
  | '%' :: f, args => other ('%' :: f) args
  | c :: f, args => c :: Sprintf other f args

/-- The default line format `"- [%s](%s) %s\n"` (main.go 261). -/
def defaultFormat : Str :=
  ['-', ' ', '[', '%', 's', ']', '(', '%', 's', ')', ' ', '%', 's', '\n']

/-- The loop that strips the extension (main.go 243-253): the value of `displayName`
afterwards. -/
def displayNameOf (fileName : Str) : List Str → Str
  | [] => fileName
  | ext :: exts =>
    if HasSuffix fileName (dotted ext) then TrimSuffix fileName (dotted ext)
    else displayNameOf fileName exts

/-- The encoded path (main.go 255-256). -/
def encodedPathOf (path : Str) : Str :=
  let markdownPath := ReplaceAll path '\\' ['/']
  ReplaceAll markdownPath ' ' ['%', '2', '0']

/-- The text one iteration of the rendering loop passes to the output file
(main.go 242-264). -/
def renderLine (lib : Lib) (task : Task) (fileInfo : FileInfo) : Str :=
  let fileName := lib.base fileInfo.Path
  let displayName := displayNameOf fileName task.Extensions
  let encodedPath := encodedPathOf fileInfo.Path
  let modDate := lib.formatDate fileInfo.ModTime
  let format := if task.Format = [] then defaultFormat else task.Format
  Sprintf lib.sprintfOther format [displayName, encodedPath, modDate]

/-- The template step (main.go 225-239) on the freshly created output file. -/
def writeTemplate (lib : Lib) (flt : Faults) (now : Nat) (task : Task)
    (rootFolder outputPath : Str) (t : Tree) : Tree × Option TaskError :=
  if task.Template ≠ [] then
    let templatePath := lib.join rootFolder task.Template
    match readFile t templatePath with
    | none => (t, none)
    | some templateContent =>
      match fileWrite flt now outputPath templateContent t with
      | none => (t, some (.writingTemplate outputPath))
      | some t2 =>
        if !HasSuffix templateContent ['\n'] then
          match fileWrite flt now outputPath ['\n'] t2 with
          | some t3 => (t3, none)
          | none => (t2, none)
        else (t2, none)
  else (t, none)

/-- The rendering loop (main.go 241-268). -/
def writeLines (lib : Lib) (flt : Faults) (now : Nat) (task : Task) (outputPath : Str) :
    List FileInfo → Tree → Tree × Option TaskError
  | [], t => (t, none)
  | fileInfo :: rest, t =>
    match fileWrite flt now outputPath (renderLine lib task fileInfo) t with
    | none => (t, some (.writingOutput outputPath))
    | some t2 => writeLines lib flt now task outputPath rest t2

/-- `processTask` (main.go 170-276) run at an instant on a file tree: the tree afterwards and
the error returned, `none` for `nil`. The messages printed to the standard streams are not
part of the embedding. -/
def processTask (lib : Lib) (flt : Faults) (now : Nat) (task : Task) (rootFolder : Str)
    (t : Tree) : Tree × Option TaskError :=
  let allFiles := sortSlice lessByPath (collectFiles lib t task rootFolder)
  let outputPath := lib.join rootFolder task.OutputFile
  if createBlocked t outputPath || flt.createFails outputPath then
    (t, some (.creating outputPath))
  else
    let t1 := createFile t outputPath now
    match writeTemplate lib flt now task rootFolder outputPath t1 with
    | (t2, some e) => (t2, some e)
    | (t2, none) => writeLines lib flt now task outputPath allFiles t2

/-! ## A sample environment

Used to evaluate the embedding on concrete inputs. Paths have the form `root/name/...`. -/

/-- A decoder given by a table of blocks; a block outside the table is a decoding error. -/
def tableDecoder (table : List (Str × Iface)) : Decoder := fun block =>
  match table.find? (fun e => e.1 == block) with
  | some e => some e.2
  | none => none

/-- What `yaml.Unmarshal` stores for three blocks: `tags: x` is the scalar `x`,
`tags: [ia, prompt]` the sequence of `ia` and `prompt`, `title: t` has no `tags` key. -/
def sampleYaml : Decoder :=
  tableDecoder
    [("tags: x\n".toList, .str "x".toList),
     ("\ntags: [ia, prompt]\n".toList, .seq [.str "ia".toList, .str "prompt".toList]),
     ("\ntitle: t\n".toList, .null)]

/-- What `toml.Unmarshal` stores for two blocks: `tags = "x"` is the string `x`,
`tags = ["ia", "prompt"]` the array of `ia` and `prompt`. -/
def sampleToml : Decoder :=
  tableDecoder
    [("tags = \"x\"\n".toList, .str "x".toList),
     ("\ntags = [\"ia\", \"prompt\"]\n".toList, .seq [.str "ia".toList, .str "prompt".toList])]

/-- The text after the last `/`. -/
def lastElem (p : Str) : Str :=
  (p.reverse.takeWhile fun c => c != '/').reverse

/-- Two decimal digits. -/
def twoDigits (n : Nat) : Str :=
  [Char.ofNat (48 + n / 10 % 10), Char.ofNat (48 + n % 10)]

/-- Library functions on paths `root/name/...`, with instants counted in days of
January 2024. -/
def sampleLib : Lib where
  yamlUnmarshal := sampleYaml
  tomlUnmarshal := sampleToml
  join := fun a b => a ++ '/' :: b
  rel := fun root p => if HasPrefix p (root ++ ['/']) then some (p.drop (root.length + 1)) else none
  base := lastElem
  inTree := fun root p => p == root || HasPrefix p (root ++ ['/'])
  formatDate := fun n => "2024-01-".toList ++ twoDigits n
  sprintfOther := fun _ _ => []

/-- No failure of the operating system. -/
def noFaults : Faults where
  createFails := fun _ => false
  writeFails := fun _ _ => false

/-- A regular, readable file. -/
def file (path content : String) (modTime : Nat) : Node :=
  { path := path.toList, isDir := false, content := content.toList, modTime := modTime,
    err := false, unreadable := false }

/-- A directory. -/
def dir (path : String) (modTime : Nat) : Node :=
  { path := path.toList, isDir := true, content := [], modTime := modTime, err := false,
    unreadable := false }

/-- A tree with two notes. -/
def notesTree : Tree :=
  [dir "r/notes" 1, file "r/notes/a.md" "no tags" 3, file "r/notes/b c.md" "text #ia" 4]

/-- The task of the first scenario: folder `notes`, extension `md`, no tags, default format. -/
def notesTask : Task :=
  { OutputFile := "index.md".toList, Template := [], Folders := ["notes".toList],
    Extensions := ["md".toList], Tags := [], Format := [] }

/-- The task of the first scenario with the extension written twice, as `md` and `.md`. -/
def dupTask : Task :=
  { OutputFile := "index.md".toList, Template := [], Folders := ["notes".toList],
    Extensions := ["md".toList, ".md".toList], Tags := [], Format := [] }

/-- The task of the first scenario writing its index into the scanned folder. -/
def indexTask : Task :=
  { OutputFile := "notes/index.md".toList, Template := [], Folders := ["notes".toList],
    Extensions := ["md".toList], Tags := [], Format := [] }

/-- A tree with one note that declares its tags in a YAML block. -/
def taggedTree : Tree :=
  [dir "r/notes" 1, file "r/notes/t.md" "---\ntags: [ia, prompt]\n---\nbody" 5]

/-- The first line of a text: the bytes before the first line feed. -/
def firstLine (content : Str) : Str :=
  content.takeWhile fun c => c != '\n'

/-! ## Facts about the `strings` package -/

theorem hasPrefix_iff (s p : Str) : HasPrefix s p = true ↔ p <+: s := by
  induction s generalizing p with
  | nil => cases p <;> simp [HasPrefix]
  | cons c s ih =>
    cases p with
    | nil => simp [HasPrefix]
    | cons d p =>
      simp only [HasPrefix, Bool.and_eq_true, beq_iff_eq, ih, List.cons_prefix_cons]
      constructor
      · rintro ⟨h1, h2⟩
        exact ⟨h1.symm, h2⟩
      · rintro ⟨h1, h2⟩
        exact ⟨h1.symm, h2⟩

theorem hasPrefix_eq_false_iff (s p : Str) : HasPrefix s p = false ↔ ¬ p <+: s := by
  rw [← hasPrefix_iff, Bool.not_eq_true]

theorem hasSuffix_iff (s p : Str) : HasSuffix s p = true ↔ p <:+ s := by
  unfold HasSuffix
  rw [hasPrefix_iff, List.reverse_prefix]

theorem index_some_iff (s sub : Str) (i : Nat) :
    Index s sub = some i ↔ (sub <+: s.drop i ∧ ∀ k, k < i → ¬ sub <+: s.drop k) := by
  induction s generalizing i with
  | nil =>
    by_cases h : HasPrefix [] sub = true
    · have h2 := (hasPrefix_iff [] sub).1 h
      simp only [Index, h, if_true, Option.some.injEq, List.drop_nil]
      constructor
      · intro hi
        subst hi
        exact ⟨h2, fun k hk => absurd hk (Nat.not_lt_zero k)⟩
      · rintro ⟨_, hk⟩
        by_contra hne
        exact hk 0 (Nat.pos_of_ne_zero (Ne.symm hne)) h2
    · have h2 : ¬ sub <+: [] := fun hp => h ((hasPrefix_iff [] sub).2 hp)
      simp only [Index, h, List.drop_nil]
      constructor
      · intro hi
        exact absurd hi (by simp)
      · rintro ⟨hp, _⟩
        exact absurd hp h2
  | cons c s ih =>
    by_cases h : HasPrefix (c :: s) sub = true
    · have h2 := (hasPrefix_iff (c :: s) sub).1 h
      simp only [Index, h, if_true, Option.some.injEq]
      constructor
      · intro hi
        subst hi
        exact ⟨h2, fun k hk => absurd hk (Nat.not_lt_zero k)⟩
      · rintro ⟨_, hk⟩
        by_contra hne
        exact hk 0 (Nat.pos_of_ne_zero (Ne.symm hne)) h2
    · have h2 : ¬ sub <+: c :: s := fun hp => h ((hasPrefix_iff (c :: s) sub).2 hp)
      cases i with
      | zero =>
        simp only [Index, h]
        constructor
        · intro hi
          cases hs : Index s sub with
          | none => rw [hs] at hi; exact absurd hi (by simp)
          | some j => rw [hs] at hi; exact absurd hi (by simp)
        · rintro ⟨hp, _⟩
          exact absurd hp h2
      | succ i =>
        have key : Index (c :: s) sub = some (i + 1) ↔ Index s sub = some i := by
          simp only [Index, h]
          cases hs : Index s sub with
          | none => simp
          | some j => simp
        rw [key, ih i]
        constructor
        · rintro ⟨hp, hk⟩
          refine ⟨hp, fun k hlt => ?_⟩
          cases k with
          | zero => exact h2
          | succ k => exact hk k (Nat.lt_of_succ_lt_succ hlt)
        · rintro ⟨hp, hk⟩
          exact ⟨hp, fun k hlt => hk (k + 1) (Nat.succ_lt_succ hlt)⟩

theorem index_none_iff (s sub : Str) : Index s sub = none ↔ ∀ k, ¬ sub <+: s.drop k := by
  induction s with
  | nil =>
    by_cases h : HasPrefix [] sub = true
    · have h2 := (hasPrefix_iff [] sub).1 h
      simp only [Index, h, if_true, List.drop_nil]
      constructor
      · intro hi
        exact absurd hi (by simp)
      · intro hk
        exact absurd h2 (hk 0)
    · have h2 : ¬ sub <+: [] := fun hp => h ((hasPrefix_iff [] sub).2 hp)
      simp only [Index, h, List.drop_nil]
      constructor
      · intro _ _
        exact h2
      · intro _
        rfl
  | cons c s ih =>
    by_cases h : HasPrefix (c :: s) sub = true
    · have h2 := (hasPrefix_iff (c :: s) sub).1 h
      simp only [Index, h, if_true]
      constructor
      · intro hi
        exact absurd hi (by simp)
      · intro hk
        exact absurd h2 (hk 0)
    · have h2 : ¬ sub <+: c :: s := fun hp => h ((hasPrefix_iff (c :: s) sub).2 hp)
      have key : Index (c :: s) sub = none ↔ Index s sub = none := by
        simp only [Index, h]
        cases hs : Index s sub with
        | none => simp
        | some j => simp
      rw [key, ih]
      constructor
      · intro hk k
        cases k with
        | zero => exact h2
        | succ k => exact hk k
      · intro hk k
        exact hk (k + 1)

theorem infix_iff_prefix_drop (s sub : Str) : sub <:+: s ↔ ∃ k, sub <+: s.drop k := by
  constructor
  · rintro ⟨a, b, hab⟩
    refine ⟨a.length, b, ?_⟩
    rw [← hab, List.append_assoc, List.drop_left]
  · rintro ⟨k, b, hb⟩
    refine ⟨s.take k, b, ?_⟩
    rw [List.append_assoc, hb, List.take_append_drop]

theorem contains_iff (s sub : Str) : Contains s sub = true ↔ sub <:+: s := by
  unfold Contains
  rw [infix_iff_prefix_drop]
  cases h : Index s sub with
  | none =>
    have hk := (index_none_iff s sub).1 h
    simp only [Option.isSome_none, Bool.false_eq_true, false_iff, not_exists]
    exact hk
  | some i =>
    have hi := ((index_some_iff s sub i).1 h).1
    simp only [Option.isSome_some, true_iff]
    exact ⟨i, hi⟩

/-! ## Facts about the tag matcher -/

theorem trimPrefix_hash_cons (t : Str) : TrimPrefix ('#' :: t) ['#'] = t := by
  simp [TrimPrefix, HasPrefix]

theorem trimPrefix_hash_of_not (t : Str) (ht : HasPrefix t ['#'] = false) :
    TrimPrefix t ['#'] = t := by
  simp [TrimPrefix, ht]

theorem searchTag_hash_cons (t : Str) : searchTag ('#' :: t) = '#' :: t := by
  simp [searchTag, HasPrefix]

theorem searchTag_of_not (t : Str) (ht : HasPrefix t ['#'] = false) :
    searchTag t = '#' :: t := by
  simp [searchTag, ht]

theorem hasPrefix_hash_iff (t : Str) : HasPrefix t ['#'] = true ↔ t.head? = some '#' := by
  cases t with
  | nil => simp [HasPrefix]
  | cons c t => simp [HasPrefix]

theorem frontTagsMatch_iff (frontTags requiredTags : List Str) :
    frontTagsMatch frontTags requiredTags = true ↔
      ∃ r ∈ requiredTags, TrimPrefix r ['#'] ∈ frontTags := by
  simp only [frontTagsMatch, List.any_eq_true, beq_iff_eq]
  constructor
  · rintro ⟨f, hf, r, hr, hfr⟩
    exact ⟨r, hr, hfr ▸ hf⟩
  · rintro ⟨r, hr, hf⟩
    exact ⟨_, hf, r, hr, rfl⟩

theorem inlineMatch_iff (contentStr : Str) (requiredTags : List Str) :
    inlineMatch contentStr requiredTags = true ↔
      ∃ r ∈ requiredTags, searchTag r <:+: contentStr := by
  simp only [inlineMatch, List.any_eq_true, contains_iff]

/-- The boolean `fileContainsTags` returns on a readable file and a non-empty list. -/
theorem fileContainsTags_readable (yamlUnmarshal tomlUnmarshal : Decoder)
    (readFile : Str → Option Str) (filePath contentStr : Str) (requiredTags : List Str)
    (hread : readFile filePath = some contentStr) (hne : requiredTags ≠ []) :
    fileContainsTags yamlUnmarshal tomlUnmarshal readFile filePath requiredTags =
      (frontTagsMatch (extractTagsFromYAMLFrontmatter yamlUnmarshal contentStr) requiredTags
        || frontTagsMatch (extractTagsFromTOMLFrontmatter tomlUnmarshal contentStr) requiredTags
        || inlineMatch contentStr requiredTags) := by
  have hlen : ¬ requiredTags.length = 0 := fun h => hne (List.length_eq_zero.1 h)
  simp only [fileContainsTags, fileContainsTagsRun, hlen, if_false, hread]
  cases frontTagsMatch (extractTagsFromYAMLFrontmatter yamlUnmarshal contentStr) requiredTags <;>
    cases frontTagsMatch (extractTagsFromTOMLFrontmatter tomlUnmarshal contentStr)
      requiredTags <;>
    cases inlineMatch contentStr requiredTags <;> rfl

/-- The boolean `fileContainsTags` returns on an unreadable file and a non-empty list. -/
theorem fileContainsTags_unreadable (yamlUnmarshal tomlUnmarshal : Decoder)
    (readFile : Str → Option Str) (filePath : Str) (requiredTags : List Str)
    (hread : readFile filePath = none) (hne : requiredTags ≠ []) :
    fileContainsTags yamlUnmarshal tomlUnmarshal readFile filePath requiredTags = false := by
  have hlen : ¬ requiredTags.length = 0 := fun h => hne (List.length_eq_zero.1 h)
  simp only [fileContainsTags, fileContainsTagsRun, hlen, if_false, hread]

/-- On a readable file and a non-empty list, `fileContainsTags` holds exactly when some
required tag is declared in a block (after its `#` is trimmed) or occurs in the text in its
`#` form. -/
theorem fileContainsTags_iff (yamlUnmarshal tomlUnmarshal : Decoder)
    (readFile : Str → Option Str) (filePath contentStr : Str) (requiredTags : List Str)
    (hread : readFile filePath = some contentStr) (hne : requiredTags ≠ []) :
    fileContainsTags yamlUnmarshal tomlUnmarshal readFile filePath requiredTags = true ↔
      ∃ r ∈ requiredTags,
        TrimPrefix r ['#'] ∈ extractTagsFromYAMLFrontmatter yamlUnmarshal contentStr
        ∨ TrimPrefix r ['#'] ∈ extractTagsFromTOMLFrontmatter tomlUnmarshal contentStr
        ∨ searchTag r <:+: contentStr := by
  rw [fileContainsTags_readable yamlUnmarshal tomlUnmarshal readFile filePath contentStr
    requiredTags hread hne]
  simp only [Bool.or_eq_true, frontTagsMatch_iff, inlineMatch_iff]
  constructor
  · rintro ((⟨r, hr, h⟩ | ⟨r, hr, h⟩) | ⟨r, hr, h⟩)
    · exact ⟨r, hr, Or.inl h⟩
    · exact ⟨r, hr, Or.inr (Or.inl h)⟩
    · exact ⟨r, hr, Or.inr (Or.inr h)⟩
  · rintro ⟨r, hr, h | h | h⟩
    · exact Or.inl (Or.inl ⟨r, hr, h⟩)
    · exact Or.inl (Or.inr ⟨r, hr, h⟩)
    · exact Or.inr ⟨r, hr, h⟩

/-! ## Claims about the tag matcher -/

/-- C1. Required-tag matching is a logical OR over the required list: on a readable file and
a non-empty list `L`, `fileContainsTags` holds for `L` exactly when it holds for the
one-element list of some tag of `L`; hence appending further tags keeps an included file
included, and reordering `L` does not change the answer. -/
theorem C1_required_tags_or (yamlUnmarshal tomlUnmarshal : Decoder)
    (readFile : Str → Option Str) (filePath contentStr : Str) (L : List Str)
    (hread : readFile filePath = some contentStr) (hne : L ≠ []) :
    (fileContainsTags yamlUnmarshal tomlUnmarshal readFile filePath L = true ↔
      ∃ t ∈ L, fileContainsTags yamlUnmarshal tomlUnmarshal readFile filePath [t] = true)
    ∧ (∀ M : List Str,
        fileContainsTags yamlUnmarshal tomlUnmarshal readFile filePath L = true →
        fileContainsTags yamlUnmarshal tomlUnmarshal readFile filePath (L ++ M) = true)
    ∧ (∀ L2 : List Str, L.Perm L2 →
        fileContainsTags yamlUnmarshal tomlUnmarshal readFile filePath L2 =
          fileContainsTags yamlUnmarshal tomlUnmarshal readFile filePath L) := by
  have single : ∀ t : Str,
      fileContainsTags yamlUnmarshal tomlUnmarshal readFile filePath [t] = true ↔
        (TrimPrefix t ['#'] ∈ extractTagsFromYAMLFrontmatter yamlUnmarshal contentStr
        ∨ TrimPrefix t ['#'] ∈ extractTagsFromTOMLFrontmatter tomlUnmarshal contentStr
        ∨ searchTag t <:+: contentStr) := by
    intro t
    rw [fileContainsTags_iff yamlUnmarshal tomlUnmarshal readFile filePath contentStr [t]
      hread (by simp)]
    simp
  have whole : ∀ K : List Str, K ≠ [] →
      (fileContainsTags yamlUnmarshal tomlUnmarshal readFile filePath K = true ↔
        ∃ t ∈ K, fileContainsTags yamlUnmarshal tomlUnmarshal readFile filePath [t] = true) := by
    intro K hK
    rw [fileContainsTags_iff yamlUnmarshal tomlUnmarshal readFile filePath contentStr K
      hread hK]
    constructor
    · rintro ⟨r, hr, h⟩
      exact ⟨r, hr, (single r).2 h⟩
    · rintro ⟨r, hr, h⟩
      exact ⟨r, hr, (single r).1 h⟩
  refine ⟨whole L hne, ?_, ?_⟩
  · intro M h
    have hLM : L ++ M ≠ [] := by
      intro h0
      exact hne (List.append_eq_nil.1 h0).1
    obtain ⟨t, ht, h1⟩ := (whole L hne).1 h
    exact (whole (L ++ M) hLM).2 ⟨t, List.mem_append_left M ht, h1⟩
  · intro L2 hperm
    have hL2 : L2 ≠ [] := by
      intro h0
      subst h0
      exact hne hperm.eq_nil
    rw [Bool.eq_iff_iff, whole L hne, whole L2 hL2]
    constructor
    · rintro ⟨t, ht, h1⟩
      exact ⟨t, hperm.mem_iff.2 ht, h1⟩
    · rintro ⟨t, ht, h1⟩
      exact ⟨t, hperm.mem_iff.1 ht, h1⟩

/-- C2. Matching ignores a leading `#` on the required side: for a tag `t` that does not
begin with `#`, `fileContainsTags` answers the same for `[t]` and for `["#" + t]`; and on a
readable file the answer is true exactly when `t` itself is one of the tags extracted from
the YAML block, or one of those extracted from the TOML block, or `"#" + t` occurs in the
text. -/
theorem C2_hash_insensitive (yamlUnmarshal tomlUnmarshal : Decoder)
    (readFile : Str → Option Str) (filePath t : Str) (ht : HasPrefix t ['#'] = false) :
    fileContainsTags yamlUnmarshal tomlUnmarshal readFile filePath [t] =
      fileContainsTags yamlUnmarshal tomlUnmarshal readFile filePath ['#' :: t]
    ∧ (∀ contentStr : Str, readFile filePath = some contentStr →
        (fileContainsTags yamlUnmarshal tomlUnmarshal readFile filePath ['#' :: t] = true ↔
          (t ∈ extractTagsFromYAMLFrontmatter yamlUnmarshal contentStr
          ∨ t ∈ extractTagsFromTOMLFrontmatter tomlUnmarshal contentStr
          ∨ ('#' :: t) <:+: contentStr))) := by
  constructor
  · cases hread : readFile filePath with
    | none =>
      rw [fileContainsTags_unreadable yamlUnmarshal tomlUnmarshal readFile filePath [t] hread
          (by simp),
        fileContainsTags_unreadable yamlUnmarshal tomlUnmarshal readFile filePath ['#' :: t]
          hread (by simp)]
    | some contentStr =>
      rw [Bool.eq_iff_iff,
        fileContainsTags_iff yamlUnmarshal tomlUnmarshal readFile filePath contentStr [t]
          hread (by simp),
        fileContainsTags_iff yamlUnmarshal tomlUnmarshal readFile filePath contentStr
          ['#' :: t] hread (by simp)]
      simp only [List.mem_singleton, exists_eq_left, trimPrefix_hash_cons,
        trimPrefix_hash_of_not t ht, searchTag_hash_cons, searchTag_of_not t ht]
  · intro contentStr hread
    rw [fileContainsTags_iff yamlUnmarshal tomlUnmarshal readFile filePath contentStr
      ['#' :: t] hread (by simp)]
    simp only [List.mem_singleton, exists_eq_left, trimPrefix_hash_cons, searchTag_hash_cons]

/-- C3. Inline marker matching is a substring test on the raw text: on a readable file and a
non-empty list, if the text contains the `#` form of some required tag (the tag itself when
it begins with `#`, otherwise `#` followed by the tag) then `fileContainsTags` is true; and
when both extractors return no tag, `fileContainsTags` is true only if such a substring
exists. -/
theorem C3_inline_marker (yamlUnmarshal tomlUnmarshal : Decoder)
    (readFile : Str → Option Str) (filePath contentStr : Str) (L : List Str)
    (hread : readFile filePath = some contentStr) (hne : L ≠ []) :
    ((∃ t ∈ L, (t.head? = some '#' ∧ t <:+: contentStr)
        ∨ (t.head? ≠ some '#' ∧ ('#' :: t) <:+: contentStr)) →
      fileContainsTags yamlUnmarshal tomlUnmarshal readFile filePath L = true)
    ∧ (extractTagsFromYAMLFrontmatter yamlUnmarshal contentStr = [] →
      extractTagsFromTOMLFrontmatter tomlUnmarshal contentStr = [] →
      fileContainsTags yamlUnmarshal tomlUnmarshal readFile filePath L = true →
      ∃ t ∈ L, (t.head? = some '#' ∧ t <:+: contentStr)
        ∨ (t.head? ≠ some '#' ∧ ('#' :: t) <:+: contentStr)) := by
  have form : ∀ t : Str, searchTag t <:+: contentStr ↔
      ((t.head? = some '#' ∧ t <:+: contentStr)
        ∨ (t.head? ≠ some '#' ∧ ('#' :: t) <:+: contentStr)) := by
    intro t
    by_cases h : HasPrefix t ['#'] = true
    · have hh := (hasPrefix_hash_iff t).1 h
      simp [searchTag, h, hh]
    · have hh : t.head? ≠ some '#' := fun hx => h ((hasPrefix_hash_iff t).2 hx)
      simp [searchTag, h, hh]
  rw [fileContainsTags_iff yamlUnmarshal tomlUnmarshal readFile filePath contentStr L hread hne]
  constructor
  · rintro ⟨t, ht, h⟩
    exact ⟨t, ht, Or.inr (Or.inr ((form t).2 h))⟩
  · intro hy hto
    rw [hy, hto]
    rintro ⟨t, ht, h | h | h⟩
    · exact absurd h (List.not_mem_nil _)
    · exact absurd h (List.not_mem_nil _)
    · exact ⟨t, ht, (form t).1 h⟩

/-- C4. An empty list of required tags matches every file: whatever the path and whatever
`os.ReadFile` would answer for it, `fileContainsTags` returns true, and it passes no path to
`os.ReadFile`. -/
theorem C4_empty_required_tags (yamlUnmarshal tomlUnmarshal : Decoder)
    (readFile : Str → Option Str) (filePath : Str) :
    fileContainsTags yamlUnmarshal tomlUnmarshal readFile filePath [] = true
    ∧ (fileContainsTagsRun yamlUnmarshal tomlUnmarshal readFile filePath []).2 = [] := by
  constructor <;> rfl

/-! ## Facts about the extractors -/

theorem extractYAML_of_index (dec : Decoder) (content : Str) (i : Nat)
    (hstart : yamlDelim <+: content) (hidx : Index (content.drop 3) yamlDelim = some i) :
    extractTagsFromYAMLFrontmatter dec content =
      match dec ((content.drop 3).take i) with
      | some (.str v) => [v]
      | some (.seq v) => v.filterMap Iface.asString
      | _ => [] := by
  have hp := (hasPrefix_iff content yamlDelim).2 hstart
  have hslice : (content.take (i + 3)).drop 3 = (content.drop 3).take i := by
    rw [List.drop_take]
    simp
  simp only [extractTagsFromYAMLFrontmatter, hp, if_true, hidx, hslice]

theorem extractTOML_of_index (dec : Decoder) (content : Str) (i : Nat)
    (hstart : tomlDelim <+: content) (hidx : Index (content.drop 3) tomlDelim = some i) :
    extractTagsFromTOMLFrontmatter dec content =
      match dec ((content.drop 3).take i) with
      | some (.str v) => [v]
      | some (.seq v) => v.filterMap Iface.asString
      | _ => [] := by
  have hp := (hasPrefix_iff content tomlDelim).2 hstart
  have hslice : (content.take (i + 3)).drop 3 = (content.drop 3).take i := by
    rw [List.drop_take]
    simp
  simp only [extractTagsFromTOMLFrontmatter, hp, if_true, hidx, hslice]

/-- The position `strings.Index` finds in `content[3:]`, from the first later occurrence. -/
theorem index_after_opening (delim content : Str) (i : Nat)
    (hocc : delim <+: content.drop (3 + i))
    (hfirst : ∀ k, k < i → ¬ delim <+: content.drop (3 + k)) :
    Index (content.drop 3) delim = some i := by
  rw [index_some_iff]
  constructor
  · rw [List.drop_drop]
    exact hocc
  · intro k hk
    rw [List.drop_drop]
    exact hfirst k hk

theorem filterMap_asString_map_str (ss : List Str) :
    (ss.map Iface.str).filterMap Iface.asString = ss := by
  induction ss with
  | nil => rfl
  | cons a ss ih => simp [Iface.asString, ih]

/-! ## Claims about the extractors -/

/-- C5. For a content that starts with `---` and in which `---` occurs again at or after
index 3, the block handed to the decoder is the text from index 3 up to the first such
occurrence, and `extractTagsFromYAMLFrontmatter` returns the tags of its `tags` key in
declaration order: `[s]` for a scalar string `s`, the string elements of a sequence in the
order written, and no tag for a missing key or another shape. The same holds for
`extractTagsFromTOMLFrontmatter` with `+++`. -/
theorem C5_tags_in_declaration_order (dec : Decoder) (delim : Str) (content : Str) (i : Nat)
    (hstart : delim <+: content)
    (hocc : delim <+: content.drop (3 + i))
    (hfirst : ∀ k, k < i → ¬ delim <+: content.drop (3 + k)) :
    (delim = yamlDelim →
      (∀ s, dec ((content.drop 3).take i) = some (.str s) →
        extractTagsFromYAMLFrontmatter dec content = [s])
      ∧ (∀ xs, dec ((content.drop 3).take i) = some (.seq xs) →
        extractTagsFromYAMLFrontmatter dec content = xs.filterMap Iface.asString)
      ∧ (∀ ss : List Str, dec ((content.drop 3).take i) = some (.seq (ss.map Iface.str)) →
        extractTagsFromYAMLFrontmatter dec content = ss)
      ∧ (dec ((content.drop 3).take i) = some .null ∨
          dec ((content.drop 3).take i) = some .other →
        extractTagsFromYAMLFrontmatter dec content = []))
    ∧ (delim = tomlDelim →
      (∀ s, dec ((content.drop 3).take i) = some (.str s) →
        extractTagsFromTOMLFrontmatter dec content = [s])
      ∧ (∀ xs, dec ((content.drop 3).take i) = some (.seq xs) →
        extractTagsFromTOMLFrontmatter dec content = xs.filterMap Iface.asString)
      ∧ (∀ ss : List Str, dec ((content.drop 3).take i) = some (.seq (ss.map Iface.str)) →
        extractTagsFromTOMLFrontmatter dec content = ss)
      ∧ (dec ((content.drop 3).take i) = some .null ∨
          dec ((content.drop 3).take i) = some .other →
        extractTagsFromTOMLFrontmatter dec content = [])) := by
  have hidx := index_after_opening delim content i hocc hfirst
  constructor
  · intro hd
    subst hd
    have key := extractYAML_of_index dec content i hstart hidx
    refine ⟨?_, ?_, ?_, ?_⟩
    · intro s hs
      rw [key, hs]
    · intro xs hs
      rw [key, hs]
    · intro ss hs
      rw [key, hs]
      exact filterMap_asString_map_str ss
    · rintro (hs | hs) <;> rw [key, hs]
  · intro hd
    subst hd
    have key := extractTOML_of_index dec content i hstart hidx
    refine ⟨?_, ?_, ?_, ?_⟩
    · intro s hs
      rw [key, hs]
    · intro xs hs
      rw [key, hs]
    · intro ss hs
      rw [key, hs]
      exact filterMap_asString_map_str ss
    · rintro (hs | hs) <;> rw [key, hs]

/-- C6, as the code has it. A block is looked for only when the content has the three bytes
`---` (respectively `+++`) as a prefix: for a content without that prefix the extractor
returns no tag. -/
theorem C6_no_prefix_no_tags (dec : Decoder) (content : Str) :
    (¬ yamlDelim <+: content → extractTagsFromYAMLFrontmatter dec content = [])
    ∧ (¬ tomlDelim <+: content → extractTagsFromTOMLFrontmatter dec content = []) := by
  constructor
  · intro h
    have hp := (hasPrefix_eq_false_iff content yamlDelim).2 h
    simp [extractTagsFromYAMLFrontmatter, hp]
  · intro h
    have hp := (hasPrefix_eq_false_iff content tomlDelim).2 h
    simp [extractTagsFromTOMLFrontmatter, hp]

/-- C7. An opened but never closed block yields no tag, whatever the decoder: when the
content starts with the delimiter and the delimiter does not occur in `content[3:]`, the
extractor returns the empty list; and so it does when the block is closed and the decoder
fails on it. -/
theorem C7_unclosed_block_no_tags (dec : Decoder) (content : Str) :
    (yamlDelim <+: content → ¬ yamlDelim <:+: content.drop 3 →
      extractTagsFromYAMLFrontmatter dec content = [])
    ∧ (tomlDelim <+: content → ¬ tomlDelim <:+: content.drop 3 →
      extractTagsFromTOMLFrontmatter dec content = [])
    ∧ (∀ i, yamlDelim <+: content → Index (content.drop 3) yamlDelim = some i →
      dec ((content.drop 3).take i) = none →
      extractTagsFromYAMLFrontmatter dec content = [])
    ∧ (∀ i, tomlDelim <+: content → Index (content.drop 3) tomlDelim = some i →
      dec ((content.drop 3).take i) = none →
      extractTagsFromTOMLFrontmatter dec content = []) := by
  refine ⟨?_, ?_, ?_, ?_⟩
  · intro hstart hno
    have hp := (hasPrefix_iff content yamlDelim).2 hstart
    have hidx : Index (content.drop 3) yamlDelim = none := by
      rw [index_none_iff]
      intro k hk
      exact hno ((infix_iff_prefix_drop _ _).2 ⟨k, hk⟩)
    simp [extractTagsFromYAMLFrontmatter, hp, hidx]
  · intro hstart hno
    have hp := (hasPrefix_iff content tomlDelim).2 hstart
    have hidx : Index (content.drop 3) tomlDelim = none := by
      rw [index_none_iff]
      intro k hk
      exact hno ((infix_iff_prefix_drop _ _).2 ⟨k, hk⟩)
    simp [extractTagsFromTOMLFrontmatter, hp, hidx]
  · intro i hstart hidx hdec
    rw [extractYAML_of_index dec content i hstart hidx, hdec]
  · intro i hstart hidx hdec
    rw [extractTOML_of_index dec content i hstart hidx, hdec]

/-! ## Facts about the order on paths and `sort.Slice` -/

theorem strLess_nil_right (c : Str) : strLess c [] = false := by
  cases c <;> rfl

theorem strLess_asymm (a b : Str) : strLess a b = true → strLess b a = false := by
  induction a generalizing b with
  | nil => cases b <;> simp [strLess]
  | cons x a ih =>
    cases b with
    | nil => simp [strLess]
    | cons y b =>
      simp only [strLess]
      rcases lt_trichotomy x y with h | h | h
      · simp [h, lt_asymm h]
      · subst h
        simpa using ih b
      · simp [h, lt_asymm h]

theorem strLess_le_trans (a b c : Str) :
    strLess b a = false → strLess c b = false → strLess c a = false := by
  induction a generalizing b c with
  | nil =>
    cases b with
    | nil => intro _ h; exact h
    | cons y b => simp [strLess, strLess_nil_right]
  | cons x a ih =>
    cases b with
    | nil =>
      cases c with
      | nil => simp [strLess]
      | cons z c => simp [strLess]
    | cons y b =>
      cases c with
      | nil => simp [strLess]
      | cons z c =>
        simp only [strLess]
        rcases lt_trichotomy x y with hxy | hxy | hxy
        · rcases lt_trichotomy y z with hyz | hyz | hyz
          · simp [hxy, hyz, lt_asymm hxy, lt_asymm hyz, lt_trans hxy hyz,
              lt_asymm (lt_trans hxy hyz)]
          · subst hyz
            simp [hxy, lt_asymm hxy]
          · simp [hxy, hyz, lt_asymm hxy, lt_asymm hyz]
        · subst hxy
          rcases lt_trichotomy x z with hyz | hyz | hyz
          · simp [hyz, lt_asymm hyz]
          · subst hyz
            simpa using ih b c
          · simp [hyz, lt_asymm hyz]
        · simp [hxy, lt_asymm hxy]

theorem sortSlice_perm (l : List FileInfo) : (sortSlice lessByPath l).Perm l := by
  unfold sortSlice
  exact List.perm_insertionSort _ l

theorem sortSlice_sorted (l : List FileInfo) :
    List.Pairwise (fun a b : FileInfo => strLess b.Path a.Path = false)
      (sortSlice lessByPath l) := by
  unfold sortSlice
  have total : IsTotal FileInfo (fun a b => lessByPath b a = false) := by
    refine ⟨fun a b => ?_⟩
    unfold lessByPath
    cases h : strLess b.Path a.Path with
    | false => exact Or.inl rfl
    | true => exact Or.inr (strLess_asymm _ _ h)
  have trans : IsTrans FileInfo (fun a b => lessByPath b a = false) := by
    refine ⟨fun a b c hab hbc => ?_⟩
    unfold lessByPath at *
    exact strLess_le_trans a.Path b.Path c.Path hab hbc
  exact @List.sorted_insertionSort FileInfo (fun a b => lessByPath b a = false) _ total trans l

/-! ## Facts about the collection loops -/

theorem walkFn_append (lib : Lib) (t : Tree) (task : Task) (rootFolder extension : Str)
    (allFiles : List FileInfo) (n : Node) :
    walkFn lib t task rootFolder extension allFiles n =
      allFiles ++ walkFn lib t task rootFolder extension [] n := by
  unfold walkFn
  split_ifs <;> simp

theorem foldl_eq_append_flatMap {α β : Type} (g : List β → α → List β) (f : α → List β)
    (hg : ∀ acc a, g acc a = acc ++ f a) (l : List α) (acc : List β) :
    l.foldl g acc = acc ++ l.flatMap f := by
  induction l generalizing acc with
  | nil => simp
  | cons a l ih => simp [List.foldl_cons, ih, hg, List.flatMap_cons, List.append_assoc]

/-- The loops of `collectFiles` append, for every folder in order, for every extension in
order, for every entry walked in order, the records the callback appends for that entry. -/
theorem collectFiles_eq (lib : Lib) (t : Tree) (task : Task) (rootFolder : Str) :
    collectFiles lib t task rootFolder =
      task.Folders.flatMap fun folder =>
        task.Extensions.flatMap fun extension =>
          (walk lib t (lib.join rootFolder folder)).flatMap fun n =>
            walkFn lib t task rootFolder (dotted extension) [] n := by
  unfold collectFiles
  rw [foldl_eq_append_flatMap _
    (fun folder => task.Extensions.flatMap fun extension =>
      (walk lib t (lib.join rootFolder folder)).flatMap fun n =>
        walkFn lib t task rootFolder (dotted extension) [] n)]
  · simp
  · intro acc folder
    rw [foldl_eq_append_flatMap _
      (fun extension => (walk lib t (lib.join rootFolder folder)).flatMap fun n =>
        walkFn lib t task rootFolder (dotted extension) [] n)]
    intro acc2 extension
    rw [foldl_eq_append_flatMap _
      (fun n => walkFn lib t task rootFolder (dotted extension) [] n)]
    intro acc3 n
    exact walkFn_append lib t task rootFolder (dotted extension) acc3 n

/-! ## Facts about the file tree -/

theorem readFile_createFile (t : Tree) (p : Str) (now : Nat) (h : createBlocked t p = false)
    (q : Str) :
    readFile (createFile t p now) q = if q = p then some [] else readFile t q := by
  induction t with
  | nil =>
    by_cases hq : q = p
    · simp [createFile, readFile, hq]
    · have hq2 : ¬ p = q := fun e => hq e.symm
      simp [createFile, readFile, hq, hq2]
  | cons n t ih =>
    by_cases hn : n.path = p
    · have hflag : (n.isDir || n.unreadable) = false := by
        simpa [createBlocked, hn] using h
      by_cases hq : q = p
      · subst hq
        simp [createFile, readFile, hn, hflag]
      · have hq2 : ¬ p = q := fun e => hq e.symm
        simp [createFile, readFile, hn, hq, hq2]
    · have hb : createBlocked t p = false := by
        simpa [createBlocked, hn] using h
      by_cases hq : q = p
      · subst hq
        simp [createFile, readFile, hn, ih hb]
      · simp only [createFile, hn, if_false, readFile, ih hb, hq]

theorem readFile_appendFile (t : Tree) (p data : Str) (now : Nat) (q : Str) :
    readFile (appendFile t p data now) q =
      if q = p then (readFile t p).map (fun c => c ++ data) else readFile t q := by
  induction t with
  | nil => simp [appendFile, readFile]
  | cons n t ih =>
    by_cases hn : n.path = p
    · by_cases hq : q = p
      · subst hq
        by_cases hflag : (n.isDir || n.unreadable) = true
        · simp [appendFile, readFile, hn, hflag]
        · simp [appendFile, readFile, hn, hflag]
      · have hq2 : ¬ p = q := fun e => hq e.symm
        simp [appendFile, readFile, hn, hq, hq2]
    · by_cases hq : q = p
      · subst hq
        simp [appendFile, readFile, hn, ih]
      · simp only [appendFile, hn, if_false, readFile, ih, hq]

theorem readFile_fileWrite (flt : Faults) (now : Nat) (outputPath data : Str) (t t2 : Tree)
    (h : fileWrite flt now outputPath data t = some t2) (q : Str) :
    readFile t2 q =
      if q = outputPath then (readFile t outputPath).map (fun c => c ++ data)
      else readFile t q := by
  unfold fileWrite at h
  split_ifs at h
  cases h
  exact readFile_appendFile t outputPath data now q

/-! ## Facts about the rendering -/

theorem writeLines_success (lib : Lib) (flt : Faults) (now : Nat) (task : Task)
    (outputPath : Str) (files : List FileInfo) (t : Tree)
    (h : (writeLines lib flt now task outputPath files t).2 = none) :
    readFile (writeLines lib flt now task outputPath files t).1 outputPath =
      (readFile t outputPath).map fun c => c ++ (files.map (renderLine lib task)).flatten := by
  induction files generalizing t with
  | nil => simp [writeLines]
  | cons f files ih =>
    cases hw : fileWrite flt now outputPath (renderLine lib task f) t with
    | none => simp [writeLines, hw] at h
    | some t2 =>
      simp only [writeLines, hw] at h ⊢
      rw [ih t2 h, readFile_fileWrite flt now outputPath _ t t2 hw outputPath]
      cases readFile t outputPath with
      | none => simp
      | some c => simp [List.append_assoc]

theorem writeTemplate_readable (lib : Lib) (flt : Faults) (now : Nat) (task : Task)
    (rootFolder outputPath : Str) (t : Tree) (c : Str) (h : readFile t outputPath = some c) :
    ∃ header, readFile (writeTemplate lib flt now task rootFolder outputPath t).1 outputPath
      = some header := by
  by_cases htpl : task.Template = []
  · exact ⟨c, by simp [writeTemplate, htpl, h]⟩
  · cases hr : readFile t (lib.join rootFolder task.Template) with
    | none => exact ⟨c, by simp [writeTemplate, htpl, hr, h]⟩
    | some templateContent =>
      cases hw : fileWrite flt now outputPath templateContent t with
      | none => exact ⟨c, by simp [writeTemplate, htpl, hr, hw, h]⟩
      | some t2 =>
        have h2 : readFile t2 outputPath = some (c ++ templateContent) := by
          rw [readFile_fileWrite flt now outputPath _ t t2 hw outputPath]
          simp [h]
        cases hnl : HasSuffix templateContent ['\n'] with
        | true => exact ⟨c ++ templateContent, by simp [writeTemplate, htpl, hr, hw, hnl, h2]⟩
        | false =>
          cases hw2 : fileWrite flt now outputPath ['\n'] t2 with
          | none =>
            exact ⟨c ++ templateContent, by simp [writeTemplate, htpl, hr, hw, hnl, hw2, h2]⟩
          | some t3 =>
            have h3 : readFile t3 outputPath = some (c ++ templateContent ++ ['\n']) := by
              rw [readFile_fileWrite flt now outputPath _ t2 t3 hw2 outputPath]
              simp [h2]
            exact ⟨c ++ templateContent ++ ['\n'],
              by simp [writeTemplate, htpl, hr, hw, hnl, hw2, h3]⟩

/-- What a successful `processTask` leaves in the output file: the content after the
template step followed by the rendered lines of the sorted records. -/
theorem processTask_success (lib : Lib) (flt : Faults) (now : Nat) (task : Task)
    (rootFolder : Str) (t : Tree)
    (hrun : (processTask lib flt now task rootFolder t).2 = none) :
    ∃ header,
      readFile (writeTemplate lib flt now task rootFolder (lib.join rootFolder task.OutputFile)
        (createFile t (lib.join rootFolder task.OutputFile) now)).1
        (lib.join rootFolder task.OutputFile) = some header
      ∧ readFile (processTask lib flt now task rootFolder t).1
          (lib.join rootFolder task.OutputFile) =
        some (header ++ ((sortSlice lessByPath (collectFiles lib t task rootFolder)).map
          (renderLine lib task)).flatten) := by
  unfold processTask at hrun ⊢
  by_cases hb : (createBlocked t (lib.join rootFolder task.OutputFile)
      || flt.createFails (lib.join rootFolder task.OutputFile)) = true
  · simp [hb] at hrun
  · have hb2 : createBlocked t (lib.join rootFolder task.OutputFile) = false := by
      cases hc : createBlocked t (lib.join rootFolder task.OutputFile) with
      | false => rfl
      | true => simp [hc] at hb
    have hcreated : readFile (createFile t (lib.join rootFolder task.OutputFile) now)
        (lib.join rootFolder task.OutputFile) = some [] := by
      rw [readFile_createFile t _ now hb2]
      simp
    obtain ⟨header, hheader⟩ := writeTemplate_readable lib flt now task rootFolder
      (lib.join rootFolder task.OutputFile)
      (createFile t (lib.join rootFolder task.OutputFile) now) [] hcreated
    refine ⟨header, hheader, ?_⟩
    simp only [hb] at hrun ⊢
    simp only [Bool.false_eq_true, if_false] at hrun ⊢
    cases hwt : writeTemplate lib flt now task rootFolder (lib.join rootFolder task.OutputFile)
        (createFile t (lib.join rootFolder task.OutputFile) now) with
    | mk t2 e =>
      rw [hwt] at hheader hrun
      cases e with
      | some e => simp at hrun
      | none =>
        simp only at hrun ⊢
        rw [writeLines_success lib flt now task _ _ t2 hrun]
        simp only at hheader
        simp [hheader]

theorem sprintf_default (other : Str → List Str → Str) (a b c : Str) :
    Sprintf other defaultFormat [a, b, c] =
      ['-', ' ', '['] ++ a ++ [']', '('] ++ b ++ [')', ' '] ++ c ++ ['\n'] := by
  simp [defaultFormat, Sprintf]

theorem renderLine_default (lib : Lib) (task : Task) (fileInfo : FileInfo)
    (hformat : task.Format = []) :
    renderLine lib task fileInfo =
      ['-', ' ', '['] ++ displayNameOf (lib.base fileInfo.Path) task.Extensions
        ++ [']', '('] ++ encodedPathOf fileInfo.Path
        ++ [')', ' '] ++ lib.formatDate fileInfo.ModTime ++ ['\n'] := by
  simp only [renderLine, hformat, if_true, sprintf_default]

theorem displayNameOf_none (fileName : Str) (exts : List Str)
    (h : ∀ e ∈ exts, ¬ dotted e <:+ fileName) : displayNameOf fileName exts = fileName := by
  induction exts with
  | nil => rfl
  | cons e exts ih =>
    have he : HasSuffix fileName (dotted e) = false := by
      rw [← Bool.not_eq_true, hasSuffix_iff]
      exact h e (List.mem_cons_self e exts)
    simp only [displayNameOf, he]
    exact ih fun e2 h2 => h e2 (List.mem_cons_of_mem e h2)

theorem trimSuffix_append (s p : Str) (h : p <:+ s) : TrimSuffix s p ++ p = s := by
  have hs := (hasSuffix_iff s p).2 h
  obtain ⟨a, rfl⟩ := h
  simp [TrimSuffix, hs]

theorem displayNameOf_first (fileName : Str) (pre : List Str) (e : Str) (post : List Str)
    (hpre : ∀ e2 ∈ pre, ¬ dotted e2 <:+ fileName) (he : dotted e <:+ fileName) :
    displayNameOf fileName (pre ++ e :: post) ++ dotted e = fileName := by
  induction pre with
  | nil =>
    have hs := (hasSuffix_iff fileName (dotted e)).2 he
    simp only [List.nil_append, displayNameOf, hs, if_true]
    exact trimSuffix_append fileName (dotted e) he
  | cons e2 pre ih =>
    have h2 : HasSuffix fileName (dotted e2) = false := by
      rw [← Bool.not_eq_true, hasSuffix_iff]
      exact hpre e2 (List.mem_cons_self e2 pre)
    simp only [List.cons_append, displayNameOf, h2]
    exact ih fun e3 h3 => hpre e3 (List.mem_cons_of_mem e2 h3)

theorem dotted_eq (e : Str) : dotted e = if e.head? = some '.' then e else '.' :: e := by
  cases e with
  | nil => simp [dotted, HasPrefix]
  | cons c e =>
    by_cases h : c = '.'
    · simp [dotted, HasPrefix, h]
    · simp [dotted, HasPrefix, h]

theorem replaceAll_append (a b : Str) (old : Char) (new : Str) :
    ReplaceAll (a ++ b) old new = ReplaceAll a old new ++ ReplaceAll b old new := by
  induction a with
  | nil => rfl
  | cons c a ih => simp [ReplaceAll, ih]

theorem encodedPathOf_eq (path : Str) :
    encodedPathOf path =
      path.flatMap fun c =>
        if c = '\\' then ['/'] else if c = ' ' then ['%', '2', '0'] else [c] := by
  unfold encodedPathOf
  induction path with
  | nil => rfl
  | cons c path ih =>
    simp only [ReplaceAll, replaceAll_append, List.flatMap_cons, ih]
    congr 1
    by_cases h1 : c = '\\'
    · subst h1
      simp [ReplaceAll]
    · by_cases h2 : c = ' '
      · subst h2
        simp [ReplaceAll]
      · simp [ReplaceAll, h1, h2]

theorem encodedPathOf_clean (path : Str) :
    ' ' ∉ encodedPathOf path ∧ '\\' ∉ encodedPathOf path := by
  rw [encodedPathOf_eq]
  induction path with
  | nil => simp
  | cons c path ih =>
    simp only [List.flatMap_cons, List.mem_append, not_or]
    refine ⟨⟨?_, ih.1⟩, ?_, ih.2⟩
    · by_cases h1 : c = '\\'
      · simp [h1]
      · by_cases h2 : c = ' '
        · simp [h2]
        · simp [h1, h2]
          exact fun e => h2 e.symm
    · by_cases h1 : c = '\\'
      · simp [h1]
      · by_cases h2 : c = ' '
        · simp [h2]
        · simp [h1, h2]
          exact fun e => h1 e.symm

theorem walkFn_nil (lib : Lib) (t : Tree) (task : Task) (rootFolder extension : Str)
    (n : Node) :
    walkFn lib t task rootFolder extension [] n =
      if (!n.err && !n.isDir && HasSuffix n.path extension
          && fileContainsTags lib.yamlUnmarshal lib.tomlUnmarshal (readFile t) n.path task.Tags)
          = true
      then [{ Path := (lib.rel rootFolder n.path).getD n.path, ModTime := n.modTime }]
      else [] := by
  unfold walkFn
  cases n.err <;> cases n.isDir <;> cases HasSuffix n.path extension <;>
    cases fileContainsTags lib.yamlUnmarshal lib.tomlUnmarshal (readFile t) n.path task.Tags <;>
    cases lib.rel rootFolder n.path <;> simp

/-! ## Facts about two runs in succession -/

theorem createFile_filter (t : Tree) (p : Str) (now : Nat) :
    (createFile t p now).filter (fun n => n.path != p) = t.filter (fun n => n.path != p) := by
  induction t with
  | nil => simp [createFile]
  | cons n t ih =>
    by_cases hn : n.path = p
    · simp [createFile, hn]
    · simp [createFile, hn, ih]

theorem appendFile_filter (t : Tree) (p data : Str) (now : Nat) :
    (appendFile t p data now).filter (fun n => n.path != p)
      = t.filter (fun n => n.path != p) := by
  induction t with
  | nil => simp [appendFile]
  | cons n t ih =>
    by_cases hn : n.path = p
    · simp [appendFile, hn]
    · simp [appendFile, hn, ih]

theorem fileWrite_filter (flt : Faults) (now : Nat) (outputPath data : Str) (t t2 : Tree)
    (h : fileWrite flt now outputPath data t = some t2) :
    t2.filter (fun n => n.path != outputPath) = t.filter (fun n => n.path != outputPath) := by
  unfold fileWrite at h
  split_ifs at h
  cases h
  exact appendFile_filter t outputPath data now

theorem writeTemplate_filter (lib : Lib) (flt : Faults) (now : Nat) (task : Task)
    (rootFolder outputPath : Str) (t : Tree) :
    (writeTemplate lib flt now task rootFolder outputPath t).1.filter
        (fun n => n.path != outputPath)
      = t.filter (fun n => n.path != outputPath) := by
  by_cases htpl : task.Template = []
  · simp [writeTemplate, htpl]
  · cases hr : readFile t (lib.join rootFolder task.Template) with
    | none => simp [writeTemplate, htpl, hr]
    | some templateContent =>
      cases hw : fileWrite flt now outputPath templateContent t with
      | none => simp [writeTemplate, htpl, hr, hw]
      | some t2 =>
        have h2 := fileWrite_filter flt now outputPath _ t t2 hw
        cases hnl : HasSuffix templateContent ['\n'] with
        | true => simp [writeTemplate, htpl, hr, hw, hnl, h2]
        | false =>
          cases hw2 : fileWrite flt now outputPath ['\n'] t2 with
          | none => simp [writeTemplate, htpl, hr, hw, hnl, hw2, h2]
          | some t3 =>
            have h3 := fileWrite_filter flt now outputPath _ t2 t3 hw2
            simp [writeTemplate, htpl, hr, hw, hnl, hw2, h3, h2]

theorem writeLines_filter (lib : Lib) (flt : Faults) (now : Nat) (task : Task)
    (outputPath : Str) (files : List FileInfo) (t : Tree) :
    (writeLines lib flt now task outputPath files t).1.filter (fun n => n.path != outputPath)
      = t.filter (fun n => n.path != outputPath) := by
  induction files generalizing t with
  | nil => simp [writeLines]
  | cons f files ih =>
    cases hw : fileWrite flt now outputPath (renderLine lib task f) t with
    | none => simp [writeLines, hw]
    | some t2 =>
      simp only [writeLines, hw]
      rw [ih t2, fileWrite_filter flt now outputPath _ t t2 hw]

/-- A run changes no entry of the tree other than those under the output path. -/
theorem processTask_filter (lib : Lib) (flt : Faults) (now : Nat) (task : Task)
    (rootFolder : Str) (t : Tree) :
    (processTask lib flt now task rootFolder t).1.filter
        (fun n => n.path != lib.join rootFolder task.OutputFile)
      = t.filter (fun n => n.path != lib.join rootFolder task.OutputFile) := by
  unfold processTask
  by_cases hb : (createBlocked t (lib.join rootFolder task.OutputFile)
      || flt.createFails (lib.join rootFolder task.OutputFile)) = true
  · simp [hb]
  · simp only [hb, Bool.false_eq_true, if_false]
    have h1 := writeTemplate_filter lib flt now task rootFolder
      (lib.join rootFolder task.OutputFile)
      (createFile t (lib.join rootFolder task.OutputFile) now)
    rw [createFile_filter] at h1
    cases hwt : writeTemplate lib flt now task rootFolder (lib.join rootFolder task.OutputFile)
        (createFile t (lib.join rootFolder task.OutputFile) now) with
    | mk t2 e =>
      rw [hwt] at h1
      cases e with
      | some e => exact h1
      | none =>
        simp only
        rw [writeLines_filter]
        exact h1

theorem readFile_filter (t : Tree) (p q : Str) (hq : q ≠ p) :
    readFile (t.filter (fun n => n.path != p)) q = readFile t q := by
  induction t with
  | nil => rfl
  | cons n t ih =>
    by_cases hn : n.path = p
    · have hpq : ¬ p = q := fun e => hq e.symm
      simp [List.filter_cons, readFile, hn, hpq, ih]
    · simp [List.filter_cons, readFile, hn, ih]

theorem readFile_eq_of_filter (ta tb : Tree) (p q : Str) (hq : q ≠ p)
    (h : ta.filter (fun n => n.path != p) = tb.filter (fun n => n.path != p)) :
    readFile ta q = readFile tb q := by
  rw [← readFile_filter ta p q hq, ← readFile_filter tb p q hq, h]

theorem fileContainsTags_congr (yamlUnmarshal tomlUnmarshal : Decoder)
    (rf1 rf2 : Str → Option Str) (filePath : Str) (requiredTags : List Str)
    (h : rf1 filePath = rf2 filePath) :
    fileContainsTags yamlUnmarshal tomlUnmarshal rf1 filePath requiredTags =
      fileContainsTags yamlUnmarshal tomlUnmarshal rf2 filePath requiredTags := by
  simp only [fileContainsTags, fileContainsTagsRun, h]

theorem flatMap_congr_mem {α β : Type} (l : List α) (f g : α → List β)
    (h : ∀ a ∈ l, f a = g a) : l.flatMap f = l.flatMap g := by
  induction l with
  | nil => rfl
  | cons a l ih =>
    simp only [List.flatMap_cons]
    rw [h a (List.mem_cons_self a l), ih fun b hb => h b (List.mem_cons_of_mem a hb)]

theorem flatMap_filter_of_nil {α β : Type} (l : List α) (q : α → Bool) (f : α → List β)
    (h : ∀ a ∈ l, q a = false → f a = []) : (l.filter q).flatMap f = l.flatMap f := by
  induction l with
  | nil => rfl
  | cons a l ih =>
    have ih2 := ih fun b hb => h b (List.mem_cons_of_mem a hb)
    cases hqa : q a with
    | true => simp [List.filter_cons, hqa, List.flatMap_cons, ih2]
    | false =>
      simp [List.filter_cons, hqa, List.flatMap_cons, ih2,
        h a (List.mem_cons_self a l) hqa]

/-- One walk of a folder for one extension yields the same records on two trees that agree
outside the output path, when the output path is not a file that walk selects. -/
theorem walk_records_congr (lib : Lib) (ta tb : Tree) (task : Task)
    (rootFolder folderPath extension outputPath : Str)
    (hsame : ta.filter (fun n => n.path != outputPath)
      = tb.filter (fun n => n.path != outputPath))
    (hsel : ¬ (lib.inTree folderPath outputPath = true
      ∧ HasSuffix outputPath extension = true)) :
    ((walk lib ta folderPath).flatMap fun n => walkFn lib ta task rootFolder extension [] n)
      = (walk lib tb folderPath).flatMap fun n =>
          walkFn lib tb task rootFolder extension [] n := by
  have drop : ∀ t : Tree,
      ((walk lib t folderPath).flatMap fun n => walkFn lib t task rootFolder extension [] n)
        = (((t.filter (fun n => n.path != outputPath)).filter
            fun n => lib.inTree folderPath n.path).flatMap
            fun n => walkFn lib t task rootFolder extension [] n) := by
    intro t
    have hcomm : ((t.filter (fun n => n.path != outputPath)).filter
        fun n => lib.inTree folderPath n.path)
        = (walk lib t folderPath).filter (fun n => n.path != outputPath) := by
      unfold walk
      rw [List.filter_filter, List.filter_filter]
      congr 1
      funext n
      exact Bool.and_comm _ _
    rw [hcomm]
    symm
    apply flatMap_filter_of_nil
    intro n hn hq
    have hpath : n.path = outputPath := by simpa using hq
    have hin : lib.inTree folderPath n.path = true := by
      unfold walk at hn
      exact (List.mem_filter.1 hn).2
    have hsuf : HasSuffix n.path extension = false := by
      cases hs : HasSuffix n.path extension with
      | false => rfl
      | true =>
        rw [hpath] at hin hs
        exact absurd ⟨hin, hs⟩ hsel
    rw [walkFn_nil]
    simp [hsuf]
  rw [drop ta, drop tb, hsame]
  apply flatMap_congr_mem
  intro n hn
  have hne : n.path ≠ outputPath := by
    have := (List.mem_filter.1 (List.mem_filter.1 hn).1).2
    simpa using this
  rw [walkFn_nil, walkFn_nil,
    fileContainsTags_congr lib.yamlUnmarshal lib.tomlUnmarshal (readFile ta) (readFile tb)
      n.path task.Tags (readFile_eq_of_filter ta tb outputPath n.path hne hsame)]

theorem collectFiles_congr (lib : Lib) (ta tb : Tree) (task : Task) (rootFolder : Str)
    (hsame : ta.filter (fun n => n.path != lib.join rootFolder task.OutputFile)
      = tb.filter (fun n => n.path != lib.join rootFolder task.OutputFile))
    (hsel : ∀ folder ∈ task.Folders, ∀ extension ∈ task.Extensions,
      ¬ (lib.inTree (lib.join rootFolder folder) (lib.join rootFolder task.OutputFile) = true
        ∧ HasSuffix (lib.join rootFolder task.OutputFile) (dotted extension) = true)) :
    collectFiles lib ta task rootFolder = collectFiles lib tb task rootFolder := by
  rw [collectFiles_eq, collectFiles_eq]
  apply flatMap_congr_mem
  intro folder hfolder
  apply flatMap_congr_mem
  intro extension hext
  exact walk_records_congr lib ta tb task rootFolder (lib.join rootFolder folder)
    (dotted extension) (lib.join rootFolder task.OutputFile) hsame
    (hsel folder hfolder extension hext)

theorem fileWrite_congr (flt : Faults) (n1 n2 : Nat) (outputPath data : Str) (ta tb : Tree)
    (h : readFile ta = readFile tb) :
    (fileWrite flt n1 outputPath data ta).map readFile
      = (fileWrite flt n2 outputPath data tb).map readFile := by
  unfold fileWrite
  rw [h]
  split_ifs
  · rfl
  · simp only [Option.map_some']
    congr 1
    funext q
    rw [readFile_appendFile, readFile_appendFile, h]

/-- The two possible outcomes of the same write on two trees that read alike. -/
theorem fileWrite_cases (flt : Faults) (n1 n2 : Nat) (outputPath data : Str) (ta tb : Tree)
    (h : readFile ta = readFile tb) :
    (fileWrite flt n1 outputPath data ta = none ∧ fileWrite flt n2 outputPath data tb = none)
    ∨ ∃ ta2 tb2, fileWrite flt n1 outputPath data ta = some ta2
        ∧ fileWrite flt n2 outputPath data tb = some tb2 ∧ readFile ta2 = readFile tb2 := by
  have hc := fileWrite_congr flt n1 n2 outputPath data ta tb h
  cases ha : fileWrite flt n1 outputPath data ta with
  | none =>
    cases hb : fileWrite flt n2 outputPath data tb with
    | none => exact Or.inl ⟨rfl, rfl⟩
    | some tb2 => rw [ha, hb] at hc; simp at hc
  | some ta2 =>
    cases hb : fileWrite flt n2 outputPath data tb with
    | none => rw [ha, hb] at hc; simp at hc
    | some tb2 =>
      rw [ha, hb] at hc
      simp only [Option.map_some', Option.some.injEq] at hc
      exact Or.inr ⟨ta2, tb2, rfl, rfl, hc⟩

theorem writeTemplate_congr (lib : Lib) (flt : Faults) (n1 n2 : Nat) (task : Task)
    (rootFolder outputPath : Str) (ta tb : Tree) (h : readFile ta = readFile tb) :
    readFile (writeTemplate lib flt n1 task rootFolder outputPath ta).1
        = readFile (writeTemplate lib flt n2 task rootFolder outputPath tb).1
    ∧ (writeTemplate lib flt n1 task rootFolder outputPath ta).2
        = (writeTemplate lib flt n2 task rootFolder outputPath tb).2 := by
  by_cases htpl : task.Template = []
  · simp [writeTemplate, htpl, h]
  · have hrt : readFile ta (lib.join rootFolder task.Template)
        = readFile tb (lib.join rootFolder task.Template) := by rw [h]
    cases hr : readFile tb (lib.join rootFolder task.Template) with
    | none =>
      rw [hr] at hrt
      simp [writeTemplate, htpl, hr, hrt, h]
    | some templateContent =>
      rw [hr] at hrt
      rcases fileWrite_cases flt n1 n2 outputPath templateContent ta tb h with
        ⟨ha, hb⟩ | ⟨ta2, tb2, ha, hb, h2⟩
      · simp [writeTemplate, htpl, hr, hrt, ha, hb, h]
      · cases hnl : HasSuffix templateContent ['\n'] with
        | true => simp [writeTemplate, htpl, hr, hrt, ha, hb, hnl, h2]
        | false =>
          rcases fileWrite_cases flt n1 n2 outputPath ['\n'] ta2 tb2 h2 with
            ⟨ha3, hb3⟩ | ⟨ta3, tb3, ha3, hb3, h3⟩
          · simp [writeTemplate, htpl, hr, hrt, ha, hb, hnl, ha3, hb3, h2]
          · simp [writeTemplate, htpl, hr, hrt, ha, hb, hnl, ha3, hb3, h3]

theorem writeLines_congr (lib : Lib) (flt : Faults) (n1 n2 : Nat) (task : Task)
    (outputPath : Str) (files : List FileInfo) (ta tb : Tree) (h : readFile ta = readFile tb) :
    readFile (writeLines lib flt n1 task outputPath files ta).1
        = readFile (writeLines lib flt n2 task outputPath files tb).1
    ∧ (writeLines lib flt n1 task outputPath files ta).2
        = (writeLines lib flt n2 task outputPath files tb).2 := by
  induction files generalizing ta tb with
  | nil => simp [writeLines, h]
  | cons f files ih =>
    rcases fileWrite_cases flt n1 n2 outputPath (renderLine lib task f) ta tb h with
      ⟨ha, hb⟩ | ⟨ta2, tb2, ha, hb, h2⟩
    · simp [writeLines, ha, hb, h]
    · simp only [writeLines, ha, hb]
      exact ih ta2 tb2 h2

theorem writeLines_readable (lib : Lib) (flt : Faults) (now : Nat) (task : Task)
    (outputPath : Str) (files : List FileInfo) (t : Tree) (c : Str)
    (h : readFile t outputPath = some c) :
    ∃ c2, readFile (writeLines lib flt now task outputPath files t).1 outputPath = some c2 := by
  induction files generalizing t c with
  | nil => exact ⟨c, by simp [writeLines, h]⟩
  | cons f files ih =>
    cases hw : fileWrite flt now outputPath (renderLine lib task f) t with
    | none => exact ⟨c, by simp [writeLines, hw, h]⟩
    | some t2 =>
      have h2 : readFile t2 outputPath = some (c ++ renderLine lib task f) := by
        rw [readFile_fileWrite flt now outputPath _ t t2 hw outputPath]
        simp [h]
      simp only [writeLines, hw]
      exact ih t2 _ h2

theorem createBlocked_of_readFile (t : Tree) (p c : Str) (h : readFile t p = some c) :
    createBlocked t p = false := by
  induction t with
  | nil => rfl
  | cons n t ih =>
    by_cases hn : n.path = p
    · cases hflag : (n.isDir || n.unreadable) with
      | false => simp [createBlocked, hn, hflag]
      | true => simp [readFile, hn, hflag] at h
    · simp only [readFile, hn, if_false] at h
      simp only [createBlocked, hn, if_false]
      exact ih h

/-- After a run that could create its output file, the file is there and readable. -/
theorem processTask_output_readable (lib : Lib) (flt : Faults) (now : Nat) (task : Task)
    (rootFolder : Str) (t : Tree)
    (hb : createBlocked t (lib.join rootFolder task.OutputFile) = false)
    (hf : flt.createFails (lib.join rootFolder task.OutputFile) = false) :
    ∃ c, readFile (processTask lib flt now task rootFolder t).1
      (lib.join rootFolder task.OutputFile) = some c := by
  have hcreated : readFile (createFile t (lib.join rootFolder task.OutputFile) now)
      (lib.join rootFolder task.OutputFile) = some [] := by
    rw [readFile_createFile t _ now hb]
    simp
  obtain ⟨header, hheader⟩ := writeTemplate_readable lib flt now task rootFolder
    (lib.join rootFolder task.OutputFile)
    (createFile t (lib.join rootFolder task.OutputFile) now) [] hcreated
  unfold processTask
  simp only [hb, hf, Bool.or_self, Bool.false_eq_true, if_false]
  cases hwt : writeTemplate lib flt now task rootFolder (lib.join rootFolder task.OutputFile)
      (createFile t (lib.join rootFolder task.OutputFile) now) with
  | mk t2 e =>
    rw [hwt] at hheader
    cases e with
    | some e => exact ⟨header, hheader⟩
    | none => exact writeLines_readable lib flt now task _ _ t2 header hheader

/-- Two runs, at any two instants, on trees that yield the same records, read alike outside
the output path and both allow the output file to be created, leave trees that read alike
and return the same error. -/
theorem processTask_congr (lib : Lib) (flt : Faults) (n1 n2 : Nat) (task : Task)
    (rootFolder : Str) (ta tb : Tree)
    (hcoll : collectFiles lib ta task rootFolder = collectFiles lib tb task rootFolder)
    (hba : createBlocked ta (lib.join rootFolder task.OutputFile) = false)
    (hbb : createBlocked tb (lib.join rootFolder task.OutputFile) = false)
    (hf : flt.createFails (lib.join rootFolder task.OutputFile) = false)
    (hread : ∀ q, q ≠ lib.join rootFolder task.OutputFile → readFile ta q = readFile tb q) :
    readFile (processTask lib flt n1 task rootFolder ta).1
        = readFile (processTask lib flt n2 task rootFolder tb).1
    ∧ (processTask lib flt n1 task rootFolder ta).2
        = (processTask lib flt n2 task rootFolder tb).2 := by
  have hcreated : readFile (createFile ta (lib.join rootFolder task.OutputFile) n1)
      = readFile (createFile tb (lib.join rootFolder task.OutputFile) n2) := by
    funext q
    rw [readFile_createFile ta _ n1 hba, readFile_createFile tb _ n2 hbb]
    by_cases hq : q = lib.join rootFolder task.OutputFile
    · simp [hq]
    · simp [hq, hread q hq]
  obtain ⟨hw1, hw2⟩ := writeTemplate_congr lib flt n1 n2 task rootFolder
    (lib.join rootFolder task.OutputFile) _ _ hcreated
  unfold processTask
  simp only [hba, hbb, hf, Bool.or_self, Bool.false_eq_true, if_false, hcoll]
  cases hwa : writeTemplate lib flt n1 task rootFolder (lib.join rootFolder task.OutputFile)
      (createFile ta (lib.join rootFolder task.OutputFile) n1) with
  | mk ta2 ea =>
    cases hwb : writeTemplate lib flt n2 task rootFolder (lib.join rootFolder task.OutputFile)
        (createFile tb (lib.join rootFolder task.OutputFile) n2) with
    | mk tb2 eb =>
      rw [hwa, hwb] at hw1 hw2
      simp only at hw1 hw2
      subst hw2
      cases ea with
      | some e => exact ⟨hw1, rfl⟩
      | none => exact writeLines_congr lib flt n1 n2 task _ _ ta2 tb2 hw1

/-! ## Claims about the task runner -/

/-- C8. The rendered index lists the discovered files sorted by path, and nothing is dropped
or deduplicated: when `processTask` succeeds the output file holds, after the template part,
the lines of the list `sortSlice lessByPath (collectFiles ...)` in order; that list is a
permutation of the records collected over all (folder, extension) pairs, one record per pair
for every walked regular file that has the extension as a suffix and passes the tag filter;
and of two consecutive records the first path is not greater than the second. -/
theorem C8_sorted_permutation (lib : Lib) (flt : Faults) (now : Nat) (task : Task)
    (rootFolder : Str) (t : Tree) :
    ((processTask lib flt now task rootFolder t).2 = none →
      ∃ header,
        readFile (writeTemplate lib flt now task rootFolder
          (lib.join rootFolder task.OutputFile)
          (createFile t (lib.join rootFolder task.OutputFile) now)).1
          (lib.join rootFolder task.OutputFile) = some header
        ∧ readFile (processTask lib flt now task rootFolder t).1
            (lib.join rootFolder task.OutputFile) =
          some (header ++ ((sortSlice lessByPath (collectFiles lib t task rootFolder)).map
            (renderLine lib task)).flatten))
    ∧ (sortSlice lessByPath (collectFiles lib t task rootFolder)).Perm
        (task.Folders.flatMap fun folder =>
          task.Extensions.flatMap fun extension =>
            (walk lib t (lib.join rootFolder folder)).flatMap fun n =>
              if (!n.err && !n.isDir && HasSuffix n.path (dotted extension)
                  && fileContainsTags lib.yamlUnmarshal lib.tomlUnmarshal (readFile t) n.path
                    task.Tags) = true
              then [{ Path := (lib.rel rootFolder n.path).getD n.path, ModTime := n.modTime }]
              else [])
    ∧ List.Chain' (fun a b : FileInfo => strLess b.Path a.Path = false)
        (sortSlice lessByPath (collectFiles lib t task rootFolder)) := by
  refine ⟨processTask_success lib flt now task rootFolder t, ?_, ?_⟩
  · have h := sortSlice_perm (collectFiles lib t task rootFolder)
    rw [collectFiles_eq] at h
    simp only [walkFn_nil] at h
    rw [collectFiles_eq]
    simp only [walkFn_nil]
    exact h
  · exact List.Pairwise.chain' (sortSlice_sorted (collectFiles lib t task rootFolder))

/-- C8 on the sample tree, with the extension given as `md` and as `.md`: every note is
listed twice. -/
theorem C8_sorted_permutation_witness :
    (processTask sampleLib noFaults 9 dupTask "r".toList notesTree).2 = none
    ∧ readFile (processTask sampleLib noFaults 9 dupTask "r".toList notesTree).1
        "r/index.md".toList =
      some ("- [a](notes/a.md) 2024-01-03\n- [a](notes/a.md) 2024-01-03\n"
        ++ "- [b c](notes/b%20c.md) 2024-01-04\n- [b c](notes/b%20c.md) 2024-01-04\n").toList
    ∧ ∃ header,
        readFile (writeTemplate sampleLib noFaults 9 dupTask "r".toList
          (sampleLib.join "r".toList dupTask.OutputFile)
          (createFile notesTree (sampleLib.join "r".toList dupTask.OutputFile) 9)).1
          (sampleLib.join "r".toList dupTask.OutputFile) = some header
        ∧ readFile (processTask sampleLib noFaults 9 dupTask "r".toList notesTree).1
            (sampleLib.join "r".toList dupTask.OutputFile) =
          some (header ++ ((sortSlice lessByPath
            (collectFiles sampleLib notesTree dupTask "r".toList)).map
            (renderLine sampleLib dupTask)).flatten) :=
  ⟨by decide, by decide,
    (C8_sorted_permutation sampleLib noFaults 9 dupTask "r".toList notesTree).1 (by decide)⟩

/-- C9. With an empty format string, a successful `processTask` appends for every record,
in order, exactly the line `- [D](P) date` and a line feed, where `D` is the base name
without the first extension of the task (with its leading dot) that is a suffix of the base
name, or the base name when none is; `P` is the record's path with every backslash replaced by
`/` and every space by `%20`; and `date` is the formatted modification time. -/
theorem C9_default_line (lib : Lib) (flt : Faults) (now : Nat) (task : Task)
    (rootFolder : Str) (t : Tree) (hformat : task.Format = [])
    (hrun : (processTask lib flt now task rootFolder t).2 = none) :
    (∃ header,
      readFile (writeTemplate lib flt now task rootFolder
        (lib.join rootFolder task.OutputFile)
        (createFile t (lib.join rootFolder task.OutputFile) now)).1
        (lib.join rootFolder task.OutputFile) = some header
      ∧ readFile (processTask lib flt now task rootFolder t).1
          (lib.join rootFolder task.OutputFile) =
        some (header ++ ((sortSlice lessByPath (collectFiles lib t task rootFolder)).map
          fun f => ['-', ' ', '['] ++ displayNameOf (lib.base f.Path) task.Extensions
            ++ [']', '('] ++ encodedPathOf f.Path
            ++ [')', ' '] ++ lib.formatDate f.ModTime ++ ['\n']).flatten))
    ∧ (∀ fileName : Str, (∀ e ∈ task.Extensions, ¬ dotted e <:+ fileName) →
        displayNameOf fileName task.Extensions = fileName)
    ∧ (∀ (fileName : Str) (pre : List Str) (e : Str) (post : List Str),
        task.Extensions = pre ++ e :: post → (∀ e2 ∈ pre, ¬ dotted e2 <:+ fileName) →
        dotted e <:+ fileName →
        displayNameOf fileName task.Extensions ++ dotted e = fileName)
    ∧ (∀ e : Str, dotted e = if e.head? = some '.' then e else '.' :: e)
    ∧ (∀ path : Str,
        encodedPathOf path =
          (path.flatMap fun c =>
            if c = '\\' then ['/'] else if c = ' ' then ['%', '2', '0'] else [c])
        ∧ ' ' ∉ encodedPathOf path ∧ '\\' ∉ encodedPathOf path) := by
  refine ⟨?_, ?_, ?_, dotted_eq, ?_⟩
  · obtain ⟨header, h1, h2⟩ := processTask_success lib flt now task rootFolder t hrun
    refine ⟨header, h1, ?_⟩
    rw [h2]
    have hline : renderLine lib task = fun f =>
        ['-', ' ', '['] ++ displayNameOf (lib.base f.Path) task.Extensions
          ++ [']', '('] ++ encodedPathOf f.Path
          ++ [')', ' '] ++ lib.formatDate f.ModTime ++ ['\n'] := by
      funext f
      exact renderLine_default lib task f hformat
    rw [hline]
  · intro fileName h
    exact displayNameOf_none fileName task.Extensions h
  · intro fileName pre e post hexts hpre he
    rw [hexts]
    exact displayNameOf_first fileName pre e post hpre he
  · intro path
    exact ⟨encodedPathOf_eq path, encodedPathOf_clean path⟩

/-- C9 on the sample tree: the two notes, one with a space in its name. -/
theorem C9_default_line_witness :
    notesTask.Format = []
    ∧ (processTask sampleLib noFaults 9 notesTask "r".toList notesTree).2 = none
    ∧ readFile (processTask sampleLib noFaults 9 notesTask "r".toList notesTree).1
        "r/index.md".toList =
      some "- [a](notes/a.md) 2024-01-03\n- [b c](notes/b%20c.md) 2024-01-04\n".toList
    ∧ ∃ header,
        readFile (writeTemplate sampleLib noFaults 9 notesTask "r".toList
          (sampleLib.join "r".toList notesTask.OutputFile)
          (createFile notesTree (sampleLib.join "r".toList notesTask.OutputFile) 9)).1
          (sampleLib.join "r".toList notesTask.OutputFile) = some header
        ∧ readFile (processTask sampleLib noFaults 9 notesTask "r".toList notesTree).1
            (sampleLib.join "r".toList notesTask.OutputFile) =
          some (header ++ ((sortSlice lessByPath
            (collectFiles sampleLib notesTree notesTask "r".toList)).map
            fun f => ['-', ' ', '['] ++ displayNameOf (sampleLib.base f.Path)
              notesTask.Extensions
              ++ [']', '('] ++ encodedPathOf f.Path
              ++ [')', ' '] ++ sampleLib.formatDate f.ModTime ++ ['\n']).flatten) :=
  ⟨rfl, by decide, by decide,
    (C9_default_line sampleLib noFaults 9 notesTask "r".toList notesTree rfl (by decide)).1⟩

/-- C10, as stated, fails: the sample task writes its index into the folder it scans. The
first run lists the two notes; the second run, on the tree the first one left and at the same
instant, also lists the index itself. -/
theorem C10_counterexample :
    (processTask sampleLib noFaults 9 indexTask "r".toList notesTree).2 = none
    ∧ (processTask sampleLib noFaults 9 indexTask "r".toList
        (processTask sampleLib noFaults 9 indexTask "r".toList notesTree).1).2 = none
    ∧ readFile (processTask sampleLib noFaults 9 indexTask "r".toList notesTree).1
        "r/notes/index.md".toList =
      some "- [a](notes/a.md) 2024-01-03\n- [b c](notes/b%20c.md) 2024-01-04\n".toList
    ∧ readFile (processTask sampleLib noFaults 9 indexTask "r".toList
        (processTask sampleLib noFaults 9 indexTask "r".toList notesTree).1).1
        "r/notes/index.md".toList =
      some ("- [a](notes/a.md) 2024-01-03\n- [b c](notes/b%20c.md) 2024-01-04\n"
        ++ "- [index](notes/index.md) 2024-01-09\n").toList := by
  decide

/-- C10, as the code has it. When the output path is not a file the scan selects (for no
folder and extension of the task is it both reached by the walk of the folder and ending in
the extension), two runs in succession, at any two instants and with the operating system
failing alike, leave the same content in the output file and return the same error. -/
theorem C10_idempotent_when_output_not_scanned (lib : Lib) (flt : Faults) (n1 n2 : Nat)
    (task : Task) (rootFolder : Str) (t : Tree)
    (hsel : ∀ folder ∈ task.Folders, ∀ extension ∈ task.Extensions,
      ¬ (lib.inTree (lib.join rootFolder folder) (lib.join rootFolder task.OutputFile) = true
        ∧ HasSuffix (lib.join rootFolder task.OutputFile) (dotted extension) = true)) :
    readFile (processTask lib flt n2 task rootFolder
        (processTask lib flt n1 task rootFolder t).1).1 (lib.join rootFolder task.OutputFile)
      = readFile (processTask lib flt n1 task rootFolder t).1
          (lib.join rootFolder task.OutputFile)
    ∧ (processTask lib flt n2 task rootFolder (processTask lib flt n1 task rootFolder t).1).2
      = (processTask lib flt n1 task rootFolder t).2 := by
  by_cases hb : (createBlocked t (lib.join rootFolder task.OutputFile)
      || flt.createFails (lib.join rootFolder task.OutputFile)) = true
  · have h1 : ∀ n, processTask lib flt n task rootFolder t
        = (t, some (.creating (lib.join rootFolder task.OutputFile))) := by
      intro n
      simp [processTask, hb]
    rw [h1 n1, h1 n2]
    exact ⟨rfl, rfl⟩
  · have hba : createBlocked t (lib.join rootFolder task.OutputFile) = false := by
      cases hc : createBlocked t (lib.join rootFolder task.OutputFile) with
      | false => rfl
      | true => simp [hc] at hb
    have hf : flt.createFails (lib.join rootFolder task.OutputFile) = false := by
      cases hc : flt.createFails (lib.join rootFolder task.OutputFile) with
      | false => rfl
      | true => simp [hc] at hb
    have hsame := processTask_filter lib flt n1 task rootFolder t
    obtain ⟨c, hc⟩ := processTask_output_readable lib flt n1 task rootFolder t hba hf
    have hbb := createBlocked_of_readFile _ _ c hc
    have hcoll := collectFiles_congr lib _ _ task rootFolder hsame hsel
    have hread : ∀ q, q ≠ lib.join rootFolder task.OutputFile →
        readFile (processTask lib flt n1 task rootFolder t).1 q = readFile t q :=
      fun q hq => readFile_eq_of_filter _ _ _ q hq hsame
    obtain ⟨h1, h2⟩ := processTask_congr lib flt n2 n1 task rootFolder
      (processTask lib flt n1 task rootFolder t).1 t hcoll hbb hba hf hread
    exact ⟨by rw [h1], h2⟩

/-- C10 on the sample tree, with the index written next to the scanned folder. -/
theorem C10_idempotent_when_output_not_scanned_witness :
    (∀ folder ∈ notesTask.Folders, ∀ extension ∈ notesTask.Extensions,
      ¬ (sampleLib.inTree (sampleLib.join "r".toList folder)
          (sampleLib.join "r".toList notesTask.OutputFile) = true
        ∧ HasSuffix (sampleLib.join "r".toList notesTask.OutputFile) (dotted extension)
          = true))
    ∧ readFile (processTask sampleLib noFaults 9 notesTask "r".toList notesTree).1
        "r/index.md".toList =
      some "- [a](notes/a.md) 2024-01-03\n- [b c](notes/b%20c.md) 2024-01-04\n".toList
    ∧ readFile (processTask sampleLib noFaults 10 notesTask "r".toList
        (processTask sampleLib noFaults 9 notesTask "r".toList notesTree).1).1
        (sampleLib.join "r".toList notesTask.OutputFile)
      = readFile (processTask sampleLib noFaults 9 notesTask "r".toList notesTree).1
          (sampleLib.join "r".toList notesTask.OutputFile) :=
  ⟨by decide, by decide,
    (C10_idempotent_when_output_not_scanned sampleLib noFaults 9 10 notesTask "r".toList
      notesTree (by decide)).1⟩

/-! ## The claims on the sample environment -/

/-- C1 on the tagged note: of the two required tags only `ia` is declared. -/
theorem C1_required_tags_or_witness :
    readFile taggedTree "r/notes/t.md".toList
      = some "---\ntags: [ia, prompt]\n---\nbody".toList
    ∧ fileContainsTags sampleYaml sampleToml (readFile taggedTree) "r/notes/t.md".toList
        ["other".toList, "ia".toList] = true
    ∧ (fileContainsTags sampleYaml sampleToml (readFile taggedTree) "r/notes/t.md".toList
        ["other".toList, "ia".toList] = true ↔
      ∃ t ∈ ["other".toList, "ia".toList],
        fileContainsTags sampleYaml sampleToml (readFile taggedTree) "r/notes/t.md".toList [t]
          = true) :=
  ⟨by decide, by decide,
    (C1_required_tags_or sampleYaml sampleToml (readFile taggedTree) "r/notes/t.md".toList
      "---\ntags: [ia, prompt]\n---\nbody".toList ["other".toList, "ia".toList]
      (by decide) (by decide)).1⟩

/-- C2 on the tagged note: `ia` and `#ia` both include the note, `other` excludes it. -/
theorem C2_hash_insensitive_witness :
    HasPrefix "ia".toList ['#'] = false
    ∧ fileContainsTags sampleYaml sampleToml (readFile taggedTree) "r/notes/t.md".toList
        ["#ia".toList] = true
    ∧ fileContainsTags sampleYaml sampleToml (readFile taggedTree) "r/notes/t.md".toList
        ["other".toList] = false
    ∧ fileContainsTags sampleYaml sampleToml (readFile taggedTree) "r/notes/t.md".toList
        ["ia".toList]
      = fileContainsTags sampleYaml sampleToml (readFile taggedTree) "r/notes/t.md".toList
        ['#' :: "ia".toList] :=
  ⟨by decide, by decide, by decide,
    (C2_hash_insensitive sampleYaml sampleToml (readFile taggedTree) "r/notes/t.md".toList
      "ia".toList (by decide)).1⟩

/-- C3 on the second note of the sample tree, whose text holds `#ia` and no block. -/
theorem C3_inline_marker_witness :
    readFile notesTree "r/notes/b c.md".toList = some "text #ia".toList
    ∧ (∃ t ∈ ["ia".toList], (t.head? = some '#' ∧ t <:+: "text #ia".toList)
        ∨ (t.head? ≠ some '#' ∧ ('#' :: t) <:+: "text #ia".toList))
    ∧ fileContainsTags sampleYaml sampleToml (readFile notesTree) "r/notes/b c.md".toList
        ["ia".toList] = true :=
  have hsub : ∃ t ∈ ["ia".toList], (t.head? = some '#' ∧ t <:+: "text #ia".toList)
      ∨ (t.head? ≠ some '#' ∧ ('#' :: t) <:+: "text #ia".toList) :=
    ⟨"ia".toList, by simp, Or.inr ⟨by decide, "text ".toList, [], by decide⟩⟩
  ⟨by decide, hsub,
    (C3_inline_marker sampleYaml sampleToml (readFile notesTree) "r/notes/b c.md".toList
      "text #ia".toList ["ia".toList] (by decide) (by decide)).1 hsub⟩

/-- C5 on the text of the tagged note: the block is the twenty bytes after the opening
delimiter, and its two tags are returned in the order written. -/
theorem C5_tags_in_declaration_order_witness :
    yamlDelim <+: "---\ntags: [ia, prompt]\n---\nbody".toList
    ∧ yamlDelim <+: ("---\ntags: [ia, prompt]\n---\nbody".toList).drop (3 + 20)
    ∧ (∀ k, k < 20 → ¬ yamlDelim <+: ("---\ntags: [ia, prompt]\n---\nbody".toList).drop (3 + k))
    ∧ extractTagsFromYAMLFrontmatter sampleYaml "---\ntags: [ia, prompt]\n---\nbody".toList
      = ["ia".toList, "prompt".toList] :=
  ⟨by decide, by decide, by decide,
    ((C5_tags_in_declaration_order sampleYaml yamlDelim
      "---\ntags: [ia, prompt]\n---\nbody".toList 20 (by decide) (by decide) (by decide)).1
      rfl).2.2.1 ["ia".toList, "prompt".toList] rfl⟩

/-- C6, as stated, fails: the first line of the content is `---tags: x`, not `---`, and the
extractor still returns the tag `x`; likewise with `+++tags = "x"`. -/
theorem C6_counterexample :
    firstLine "---tags: x\n---\n".toList ≠ yamlDelim
    ∧ extractTagsFromYAMLFrontmatter sampleYaml "---tags: x\n---\n".toList = ["x".toList]
    ∧ firstLine "+++tags = \"x\"\n+++\n".toList ≠ tomlDelim
    ∧ extractTagsFromTOMLFrontmatter sampleToml "+++tags = \"x\"\n+++\n".toList
      = ["x".toList] := by
  decide

/-- C6, as the code has it, on a text without front matter. -/
theorem C6_no_prefix_no_tags_witness :
    ¬ yamlDelim <+: "Just some regular content.".toList
    ∧ extractTagsFromYAMLFrontmatter sampleYaml "Just some regular content.".toList = [] :=
  ⟨by decide,
    (C6_no_prefix_no_tags sampleYaml "Just some regular content.".toList).1 (by decide)⟩

/-- C7 on a text whose block is opened and never closed. -/
theorem C7_unclosed_block_no_tags_witness :
    yamlDelim <+: "---\ntags: [ia]\nbody".toList
    ∧ ¬ yamlDelim <:+: ("---\ntags: [ia]\nbody".toList).drop 3
    ∧ extractTagsFromYAMLFrontmatter sampleYaml "---\ntags: [ia]\nbody".toList = [] :=
  ⟨by decide, by decide,
    (C7_unclosed_block_no_tags sampleYaml "---\ntags: [ia]\nbody".toList).1
      (by decide) (by decide)⟩

end MarkdownFileInventory
